import Mathlib

/-!
Verification of the document pipeline of `LiquidGlassDocViewer.tsx`: document
normalization cleanup, pagination, sentence segmentation, per-element highlight
state, and highlight export.  Each definition is a shallow embedding of the
corresponding TypeScript function; strings are modelled as sequences of Unicode
code points (`List Char` under Lean `String`).
-/

namespace DocViewer

/-- The tagged union `DocElement` from the source.  The `id` field is the
`uid()`-generated string; `level` is 1, 2 or 3 for headings. -/
inductive DocElement where
  | heading (id : String) (level : Nat) (content : String)
  | paragraph (id : String) (text : String)
  | checkbox (id : String) (text : String)
  | table (id : String) (data : List (List String))
  | pageBreak (id : String)
  deriving DecidableEq, Repr

/-- Discriminator for `el.type === "pageBreak"`. -/
def DocElement.isPageBreak : DocElement → Bool
  | .pageBreak _ => true
  | _ => false

/-! ## Paginator: `splitElementsIntoPages` (source lines 151-161)

The JS loop keeps an array `pages` whose last entry is the page currently
being filled; we model it with the already-closed pages `pages` plus the
current page `cur` (so the JS `pages` array is `pages ++ [cur]`). -/

/-- Loop of `splitElementsIntoPages`: a `pageBreak` closes the current page
(only when it is non-empty, matching `if (pages.at(-1)?.length) pages.push([])`)
and is itself dropped; any other element is appended to the current page. -/
def splitPagesAux (pages : List (List DocElement)) (cur : List DocElement) :
    List DocElement → List (List DocElement)
  | [] => pages ++ [cur]
  | el :: rest =>
    if el.isPageBreak then
      if cur.isEmpty then splitPagesAux pages cur rest
      else splitPagesAux (pages ++ [cur]) [] rest
    else splitPagesAux pages (cur ++ [el]) rest

/-- `splitElementsIntoPages`: run the loop starting from one empty page, then
drop empty pages (`pages.filter((p) => p.length > 0)`). -/
def splitElementsIntoPages (elements : List DocElement) : List (List DocElement) :=
  (splitPagesAux [] [] elements).filter (fun p => !p.isEmpty)

theorem splitPagesAux_join (l : List DocElement) :
    ∀ pages cur, (splitPagesAux pages cur l).flatten =
      pages.flatten ++ cur ++ l.filter (fun e => !e.isPageBreak) := by
  induction l with
  | nil => intro pages cur; simp [splitPagesAux]
  | cons el rest ih =>
    intro pages cur
    by_cases h : el.isPageBreak
    · by_cases hc : cur.isEmpty
      · rw [splitPagesAux, if_pos h, if_pos hc, ih]
        simp [List.filter_cons, h]
      · rw [splitPagesAux, if_pos h, if_neg hc, ih]
        simp [List.filter_cons, h, List.flatten_append]
    · rw [splitPagesAux, if_neg h, ih]
      simp [List.filter_cons, h, List.append_assoc]

theorem join_filter_nonempty {α : Type} (l : List (List α)) :
    (l.filter (fun p => !p.isEmpty)).flatten = l.flatten := by
  induction l with
  | nil => rfl
  | cons p rest ih =>
    by_cases hp : p.isEmpty
    · have hp' : p = [] := List.isEmpty_iff.mp hp
      simp [List.filter_cons, hp, ih, hp']
    · simp [List.filter_cons, hp, ih]

/-- C2: concatenating the elements of all pages returned by the paginator, in
order, yields exactly the original element list with the `pageBreak` elements
removed: every non-`pageBreak` element appears exactly once in original
relative order, and nothing else appears. -/
theorem C2_page_coverage (elements : List DocElement) :
    (splitElementsIntoPages elements).flatten
      = elements.filter (fun e => !e.isPageBreak) := by
  unfold splitElementsIntoPages
  rw [join_filter_nonempty, splitPagesAux_join]
  simp

theorem splitPagesAux_no_pb (l : List DocElement) :
    ∀ pages cur, (∀ p ∈ pages, ∀ e ∈ p, e.isPageBreak = false) →
      (∀ e ∈ cur, e.isPageBreak = false) →
      ∀ p ∈ splitPagesAux pages cur l, ∀ e ∈ p, e.isPageBreak = false := by
  induction l with
  | nil =>
    intro pages cur hp hc p hmem
    simp only [splitPagesAux, List.mem_append, List.mem_singleton] at hmem
    rcases hmem with h | h
    · exact hp p h
    · subst h; exact hc
  | cons el rest ih =>
    intro pages cur hp hc p hmem
    by_cases h : el.isPageBreak
    · by_cases hcur : cur.isEmpty
      · rw [splitPagesAux, if_pos h, if_pos hcur] at hmem
        exact ih pages cur hp hc p hmem
      · rw [splitPagesAux, if_pos h, if_neg hcur] at hmem
        refine ih (pages ++ [cur]) [] ?_ (by simp) p hmem
        intro q hq
        rcases List.mem_append.mp hq with hq | hq
        · exact hp q hq
        · rw [List.mem_singleton] at hq; subst hq; exact hc
    · rw [splitPagesAux, if_neg (by simp [h])] at hmem
      refine ih pages (cur ++ [el]) hp ?_ p hmem
      intro e he
      rcases List.mem_append.mp he with he | he
      · exact hc e he
      · rw [List.mem_singleton] at he; subst he
        simpa using h

/-- C3 counterexample: the one-element list `[pageBreak]` is non-empty, yet
the paginator returns zero pages for it, refuting the claim that every
non-empty element list yields at least one page. -/
theorem C3_counterexample :
    ([DocElement.pageBreak "pb"] ≠ ([] : List DocElement))
      ∧ splitElementsIntoPages [DocElement.pageBreak "pb"] = [] := by
  constructor
  · simp
  · rfl

/-- C3 (amended): every page returned by the paginator is non-empty and
contains no `pageBreak` element; and whenever the input list contains at least
one non-`pageBreak` element (in particular, for every non-empty normalization
output), at least one page is returned.  The original claim fails only on
inputs consisting entirely of `pageBreak` elements, which normalization never
produces. -/
theorem C3_pages_nonempty_no_breaks (elements : List DocElement) :
    (∀ p ∈ splitElementsIntoPages elements,
        p ≠ [] ∧ ∀ e ∈ p, e.isPageBreak = false)
      ∧ ((∃ e ∈ elements, e.isPageBreak = false) →
          splitElementsIntoPages elements ≠ []) := by
  constructor
  · intro p hp
    have hmem := List.mem_filter.mp hp
    constructor
    · intro hnil
      rw [hnil] at hmem
      simp at hmem
    · exact splitPagesAux_no_pb elements [] [] (by simp) (by simp) p hmem.1
  · rintro ⟨e, he, hpb⟩ hnil
    have hjoin := C2_page_coverage elements
    rw [hnil] at hjoin
    have : e ∈ elements.filter (fun e => !e.isPageBreak) :=
      List.mem_filter.mpr ⟨he, by simp [hpb]⟩
    rw [← hjoin] at this
    simp at this

/-- C3 witness: applying the amended theorem at a concrete input.  The list
`[paragraph]` contains a non-`pageBreak` element, so at least one page comes
back. -/
theorem C3_witness :
    splitElementsIntoPages [DocElement.paragraph "p1" "x"] ≠ [] :=
  (C3_pages_nonempty_no_breaks [DocElement.paragraph "p1" "x"]).2
    ⟨DocElement.paragraph "p1" "x", by simp, rfl⟩

/-! ## Normalizer cleanup (source lines 141-148)

`docxToElements` walks the parsed DOM (the walk itself lives in the browser's
HTML parser and is not embeddable) and then post-processes the raw element
list `out`: it drops a `pageBreak` whose previously kept element is also a
`pageBreak`, and finally drops a trailing `pageBreak`.  We embed the
post-processing over an arbitrary raw list, which covers the normalization of
every possible HTML input. -/

/-- Test `cleaned.at(-1)?.type === "pageBreak"`. -/
def lastIsPB (l : List DocElement) : Bool :=
  match l.getLast? with
  | some e => e.isPageBreak
  | none => false

/-- Loop of the cleanup pass: `for (const el of out) { if (el.type ===
"pageBreak" && cleaned.at(-1)?.type === "pageBreak") continue; cleaned.push(el) }`. -/
def cleanupLoop (acc : List DocElement) : List DocElement → List DocElement
  | [] => acc
  | el :: rest =>
    if el.isPageBreak && lastIsPB acc then cleanupLoop acc rest
    else cleanupLoop (acc ++ [el]) rest

/-- Cleanup pass of `docxToElements`: collapse adjacent page breaks, then drop
a trailing one (`if (cleaned.at(-1)?.type === "pageBreak") cleaned.pop()`). -/
def docxCleanup (out : List DocElement) : List DocElement :=
  if lastIsPB (cleanupLoop [] out) then (cleanupLoop [] out).dropLast
  else cleanupLoop [] out

/-- No two adjacent elements of the list are both page breaks. -/
def NoAdjPB (l : List DocElement) : Prop :=
  l.Chain' (fun a b => ¬(a.isPageBreak = true ∧ b.isPageBreak = true))

theorem cleanupLoop_noAdj (l : List DocElement) :
    ∀ acc, NoAdjPB acc → NoAdjPB (cleanupLoop acc l) := by
  induction l with
  | nil => intro acc h; exact h
  | cons el rest ih =>
    intro acc h
    by_cases hg : el.isPageBreak && lastIsPB acc
    · rw [cleanupLoop, if_pos hg]; exact ih acc h
    · rw [cleanupLoop, if_neg hg]
      refine ih (acc ++ [el]) ?_
      rw [NoAdjPB, List.chain'_append]
      refine ⟨h, List.chain'_singleton _, ?_⟩
      intro x hx y hy
      rw [List.head?_cons, Option.mem_some_iff] at hy
      subst hy
      rintro ⟨hxpb, hypb⟩
      have hlast : lastIsPB acc = true := by
        unfold lastIsPB
        rcases hl : acc.getLast? with _ | e
        · rw [hl] at hx; simp at hx
        · rw [hl] at hx
          rw [Option.mem_some_iff] at hx
          subst hx
          exact hxpb
      simp [hypb, hlast] at hg

theorem noAdjPB_dropLast {l : List DocElement} (h : NoAdjPB l) :
    NoAdjPB l.dropLast := by
  rcases List.eq_nil_or_concat l with rfl | ⟨l', e, rfl⟩
  · exact h
  · rw [List.concat_eq_append] at h ⊢
    rw [List.dropLast_concat]
    rw [NoAdjPB, List.chain'_append] at h
    exact h.1

theorem noAdj_trailing {c : List DocElement} (hchain : NoAdjPB c)
    (hl : lastIsPB c = true) :
    ∀ e, c.dropLast.getLast? = some e → e.isPageBreak = false := by
  rcases List.eq_nil_or_concat c with rfl | ⟨l', x, rfl⟩
  · simp [lastIsPB] at hl
  · intro e he
    rw [List.concat_eq_append] at hchain hl he
    rw [List.dropLast_concat] at he
    have hx : x.isPageBreak = true := by
      unfold lastIsPB at hl
      rw [List.getLast?_append_cons, List.getLast?_singleton] at hl
      exact hl
    rw [NoAdjPB, List.chain'_append] at hchain
    by_contra hpb
    rw [Bool.not_eq_false] at hpb
    exact hchain.2.2 e (by rw [he]; rfl) x (by simp) ⟨hpb, hx⟩

/-- C4: for every raw element list produced by the DOM walk of
`docxToElements` (hence for every input HTML string), the cleaned-up
normalization output never contains two consecutive `pageBreak` elements and
never ends with a `pageBreak`. -/
theorem C4_no_adjacent_or_trailing_breaks (out : List DocElement) :
    NoAdjPB (docxCleanup out)
      ∧ ∀ e, (docxCleanup out).getLast? = some e → e.isPageBreak = false := by
  have hchain : NoAdjPB (cleanupLoop [] out) :=
    cleanupLoop_noAdj out [] (by constructor)
  constructor
  · by_cases hl : lastIsPB (cleanupLoop [] out)
    · rw [docxCleanup, if_pos hl]
      exact noAdjPB_dropLast hchain
    · rw [docxCleanup, if_neg hl]
      exact hchain
  · intro e he
    by_cases hl : lastIsPB (cleanupLoop [] out)
    · rw [docxCleanup, if_pos hl] at he
      exact noAdj_trailing hchain hl e he
    · rw [docxCleanup, if_neg hl] at he
      by_contra hpb
      rw [Bool.not_eq_false] at hpb
      unfold lastIsPB at hl
      rw [he] at hl
      simp [hpb] at hl

/-- C4 witness: the theorem applied to a concrete raw list with doubled and
trailing breaks; the surviving last element is the paragraph, not a break. -/
theorem C4_witness :
    (DocElement.paragraph "p1" "x").isPageBreak = false :=
  (C4_no_adjacent_or_trailing_breaks
      [DocElement.pageBreak "a", DocElement.pageBreak "b",
        DocElement.paragraph "p1" "x", DocElement.pageBreak "c"]).2
    (DocElement.paragraph "p1" "x") (by rfl)

/-! ## Annotation store (source lines 198-213, 419-431, 291-293)

`HighlightsState` is the per-document `Record<string, {sentences, hasHighlight}>`;
we model it as a partial map from element keys to entries.  Sentence indices
are JS numbers used as integers, modelled by `Int`. -/

structure HighlightEntry where
  sentences : List Int
  hasHighlight : Bool
  deriving DecidableEq, Repr

/-- The per-document highlight map. -/
def HighlightsState : Type := String → Option HighlightEntry

/-- The map of a document that has never been annotated. -/
def emptyHighlights : HighlightsState := fun _ => none

/-- `handleSentenceClick` (toggleSentence): flips membership of
`sentenceIndex` in the element's `sentences` list (remove by `filter`, add by
appending) and recomputes `hasHighlight` as `nextSentences.length > 0`.  A
missing entry is read as `{ sentences: [], hasHighlight: false }`. -/
def handleSentenceClick (elementId : String) (sentenceIndex : Int)
    (prev : HighlightsState) : HighlightsState :=
  let current := (prev elementId).getD ⟨[], false⟩
  let already := current.sentences.contains sentenceIndex
  let nextSentences :=
    if already then current.sentences.filter (fun i => i ≠ sentenceIndex)
    else current.sentences ++ [sentenceIndex]
  fun k =>
    if k = elementId then some ⟨nextSentences, decide (0 < nextSentences.length)⟩
    else prev k

/-- Table-cell key `` `${elementId}_r${rowIndex}_c${cellIndex}` ``. -/
def cellKey (elementId : String) (rowIndex cellIndex : Int) : String :=
  elementId ++ "_r" ++ toString rowIndex ++ "_c" ++ toString cellIndex

/-- `handleCellClick` (toggleCell): the cell is a boolean unit; its entry
becomes `{sentences: [0], hasHighlight: true}` or `{sentences: [],
hasHighlight: false}` depending on the previous `hasHighlight`. -/
def handleCellClick (elementId : String) (rowIndex cellIndex : Int)
    (prev : HighlightsState) : HighlightsState :=
  let key := cellKey elementId rowIndex cellIndex
  let current := (prev key).getD ⟨[], false⟩
  fun k =>
    if k = key then
      some ⟨if current.hasHighlight then [] else [(0 : Int)], !current.hasHighlight⟩
    else prev k

/-- `clearHighlights`: resets the whole map for the document. -/
def clearHighlights : HighlightsState → HighlightsState := fun _ => fun _ => none

/-- One user operation on the highlight map. -/
inductive HlOp where
  | toggleSentence (elementId : String) (sentenceIndex : Int)
  | toggleCell (elementId : String) (rowIndex cellIndex : Int)
  | clearAll
  deriving DecidableEq, Repr

def applyOp (m : HighlightsState) : HlOp → HighlightsState
  | .toggleSentence i idx => handleSentenceClick i idx m
  | .toggleCell i r c => handleCellClick i r c m
  | .clearAll => clearHighlights m

/-- Apply a finite sequence of operations, left to right. -/
def applyOps (ops : List HlOp) (m : HighlightsState) : HighlightsState :=
  ops.foldl applyOp m

/-- Every entry of the map has `hasHighlight` equal to the non-emptiness of
its `sentences` list. -/
def ConsistentHl (m : HighlightsState) : Prop :=
  ∀ k e, m k = some e → (e.hasHighlight = true ↔ e.sentences ≠ [])

theorem consistent_applyOp {m : HighlightsState} (h : ConsistentHl m)
    (op : HlOp) : ConsistentHl (applyOp m op) := by
  cases op with
  | toggleSentence i idx =>
    intro k e he
    simp only [applyOp, handleSentenceClick] at he
    by_cases hk : k = i
    · rw [if_pos hk] at he
      cases he
      simp only [decide_eq_true_eq]
      exact ⟨fun hpos => List.ne_nil_of_length_pos hpos,
        fun hne => List.length_pos.mpr hne⟩
    · rw [if_neg hk] at he
      exact h k e he
  | toggleCell i r c =>
    intro k e he
    simp only [applyOp, handleCellClick] at he
    by_cases hk : k = cellKey i r c
    · rw [if_pos hk] at he
      cases he
      by_cases hcur : (((m (cellKey i r c)).getD ⟨[], false⟩).hasHighlight : Bool)
      · simp [hcur]
      · simp [hcur]
    · rw [if_neg hk] at he
      exact h k e he
  | clearAll =>
    intro k e he
    simp [applyOp, clearHighlights] at he

/-- C5: starting from the empty highlight map, after any finite sequence of
toggleSentence, toggleCell and clearAll operations, every entry of the map
satisfies `hasHighlight = (sentences non-empty)`. -/
theorem C5_highlight_consistency (ops : List HlOp) :
    ConsistentHl (applyOps ops emptyHighlights) := by
  have hgen : ∀ (l : List HlOp) (m : HighlightsState), ConsistentHl m →
      ConsistentHl (applyOps l m) := by
    intro l
    induction l with
    | nil => intro m h; exact h
    | cons op rest ih =>
      intro m h
      exact ih (applyOp m op) (consistent_applyOp h op)
  exact hgen ops emptyHighlights (by intro k e he; cases he)

/-- C9: on an element id not present in the map, one toggleSentence at index 0
creates the entry `{sentences: [0], hasHighlight: true}` (the unknown id is
read as an empty entry, and no error occurs since the operation is a total
function), and a second toggle returns the entry to
`{sentences: [], hasHighlight: false}`. -/
theorem C9_double_toggle_fresh (m : HighlightsState) (elementId : String)
    (h : m elementId = none) :
    handleSentenceClick elementId 0 m elementId
        = some ⟨[(0 : Int)], true⟩
      ∧ handleSentenceClick elementId 0 (handleSentenceClick elementId 0 m) elementId
        = some ⟨[], false⟩ := by
  have h1 : handleSentenceClick elementId 0 m elementId
      = some ⟨[(0 : Int)], true⟩ := by
    simp [handleSentenceClick, h]
  refine ⟨h1, ?_⟩
  set m1 := handleSentenceClick elementId 0 m with hm1
  simp [handleSentenceClick, h1]

/-- C9 witness: the theorem applied to the empty map and a concrete id. -/
theorem C9_witness :
    handleSentenceClick "e1" 0
        (handleSentenceClick "e1" 0 emptyHighlights) "e1"
      = some ⟨[], false⟩ :=
  (C9_double_toggle_fresh emptyHighlights "e1" rfl).2

/-! ## Character-level text utilities

JS strings are modelled as their sequences of code points.  `jsWhitespace` is
the character class of the JS `\s` escape (also the class trimmed by
`String.prototype.trim`). -/

def jsWhitespace (c : Char) : Bool :=
  c = ' ' || c = '\t' || c = '\n' || c = '\x0b' || c = '\x0c' || c = '\r' ||
  c = '\u00A0' || c = '\u1680' || ('\u2000' ≤ c && c ≤ '\u200A') ||
  c = '\u2028' || c = '\u2029' || c = '\u202F' || c = '\u205F' ||
  c = '\u3000' || c = '\uFEFF'

/-- JS `String.prototype.trim`: strip `\s` characters from both ends. -/
def jsTrimL (l : List Char) : List Char :=
  ((l.dropWhile jsWhitespace).reverse.dropWhile jsWhitespace).reverse

def jsTrim (s : String) : String := ⟨jsTrimL s.toList⟩

/-- Loop of `.replace(/\s+/g, " ")`: each maximal whitespace run becomes one
space.  `inRun` records whether the previous character was part of a run
already replaced. -/
def collapseWsGo (inRun : Bool) : List Char → List Char
  | [] => []
  | c :: rest =>
    if jsWhitespace c then
      if inRun then collapseWsGo true rest
      else ' ' :: collapseWsGo true rest
    else c :: collapseWsGo false rest

/-- JS `.replace(/\s+/g, " ")`. -/
def collapseWsL (l : List Char) : List Char := collapseWsGo false l

def collapseWs (s : String) : String := ⟨collapseWsL s.toList⟩

/-- The whitespace normalization `text.replace(/\s+/g, " ").trim()` used by
`docxToElements` and `looksLikeHeadingText`. -/
def normWsTextL (l : List Char) : List Char := jsTrimL (collapseWsL l)

def normWsText (s : String) : String := ⟨normWsTextL s.toList⟩

/-! Small list lemmas about `dropWhile` used below. -/

theorem head?_dropWhile_false (p : Char → Bool) :
    ∀ l : List Char, ∀ c, (l.dropWhile p).head? = some c → p c = false := by
  intro l
  induction l with
  | nil => intro c h; cases h
  | cons d rest ih =>
    intro c h
    by_cases hd : p d
    · rw [List.dropWhile_cons_of_pos hd] at h
      exact ih c h
    · rw [List.dropWhile_cons_of_neg hd] at h
      cases h
      simpa using hd

theorem dropWhile_eq_self_of_head (p : Char → Bool) (l : List Char)
    (h : ∀ c, l.head? = some c → p c = false) : l.dropWhile p = l := by
  cases l with
  | nil => rfl
  | cons c rest =>
    have := h c rfl
    rw [List.dropWhile_cons_of_neg (by simp [this])]

theorem dropWhile_dropWhile_self (p : Char → Bool) (l : List Char) :
    (l.dropWhile p).dropWhile p = l.dropWhile p := by
  refine dropWhile_eq_self_of_head p _ ?_
  exact head?_dropWhile_false p l

theorem length_dropWhile_le' (p : Char → Bool) (l : List Char) :
    (l.dropWhile p).length ≤ l.length :=
  (List.dropWhile_sublist _).length_le

theorem getLast?_cons_ne {α : Type} (c : α) (rest : List α) (h : rest ≠ []) :
    (c :: rest).getLast? = rest.getLast? := by
  cases rest with
  | nil => exact absurd rfl h
  | cons d tl => rfl

theorem getLast?_dropWhile_of_ne (p : Char → Bool) :
    ∀ l : List Char, l.dropWhile p ≠ [] →
      (l.dropWhile p).getLast? = l.getLast? := by
  intro l
  induction l with
  | nil => intro h; simp at h
  | cons c rest ih =>
    intro h
    by_cases hc : p c
    · rw [List.dropWhile_cons_of_pos hc] at h ⊢
      have hrest : rest ≠ [] := by
        intro hr; rw [hr] at h; simp at h
      rw [ih h, getLast?_cons_ne c rest hrest]
    · rw [List.dropWhile_cons_of_neg hc]

/-- The trim function fixes anything already trimmed front and back. -/
theorem jsTrimL_idem (l : List Char) : jsTrimL (jsTrimL l) = jsTrimL l := by
  unfold jsTrimL
  set a := l.dropWhile jsWhitespace with ha
  set c := a.reverse.dropWhile jsWhitespace with hc
  have hfront : c.reverse.dropWhile jsWhitespace = c.reverse := by
    refine dropWhile_eq_self_of_head _ _ ?_
    intro x hx
    rw [List.head?_reverse] at hx
    rcases hnil : c with _ | _
    · rw [hnil] at hx; cases hx
    · have hcne : c ≠ [] := by rw [hnil]; simp
      have := getLast?_dropWhile_of_ne jsWhitespace a.reverse (by rw [← hc] at *; exact hc ▸ hcne)
      rw [← hc] at this
      rw [this, List.getLast?_reverse] at hx
      have hane : a ≠ [] := by
        intro h0
        rw [h0] at hx
        cases hx
      exact head?_dropWhile_false jsWhitespace l x (by rw [← ha]; exact hx)
  rw [hfront, List.reverse_reverse, dropWhile_dropWhile_self]

/-- Whitespace-normal form: every whitespace character is a plain space, and
no two whitespace characters are adjacent.  This is the shape of
`.replace(/\s+/g, " ")` output, and is preserved by trimming. -/
def WsNormal (l : List Char) : Prop :=
  (∀ c ∈ l, jsWhitespace c = true → c = ' ')
    ∧ l.Chain' (fun a b => jsWhitespace a = false ∨ jsWhitespace b = false)

theorem collapseWsGo_wsNormal (l : List Char) :
    ∀ b : Bool, WsNormal (collapseWsGo b l)
      ∧ (b = true →
          ∀ c, (collapseWsGo b l).head? = some c → jsWhitespace c = false) := by
  induction l with
  | nil =>
    intro b
    refine ⟨⟨by simp [collapseWsGo], by simp [collapseWsGo]⟩, ?_⟩
    intro _ c hc
    simp [collapseWsGo] at hc
  | cons c rest ih =>
    intro b
    by_cases hw : jsWhitespace c
    · cases b with
      | true =>
        rw [show collapseWsGo true (c :: rest) = collapseWsGo true rest by
          rw [collapseWsGo, if_pos hw, if_pos rfl]]
        exact ⟨(ih true).1, fun _ => (ih true).2 rfl⟩
      | false =>
        rw [show collapseWsGo false (c :: rest) = ' ' :: collapseWsGo true rest by
          rw [collapseWsGo, if_pos hw, if_neg (by simp)]]
        refine ⟨⟨?_, ?_⟩, ?_⟩
        · intro d hd hwd
          rcases List.mem_cons.mp hd with rfl | hd
          · rfl
          · exact (ih true).1.1 d hd hwd
        · refine List.chain'_cons'.mpr ⟨?_, (ih true).1.2⟩
          intro y hy
          exact Or.inr ((ih true).2 rfl y hy)
        · intro h; cases h
    · rw [show collapseWsGo b (c :: rest) = c :: collapseWsGo false rest by
        rw [collapseWsGo, if_neg hw]]
      refine ⟨⟨?_, ?_⟩, ?_⟩
      · intro d hd hwd
        rcases List.mem_cons.mp hd with rfl | hd
        · exact absurd hwd hw
        · exact (ih false).1.1 d hd hwd
      · refine List.chain'_cons'.mpr ⟨?_, (ih false).1.2⟩
        intro y _
        exact Or.inl (by simpa using hw)
      · intro _ d hd
        rw [List.head?_cons, Option.some.injEq] at hd
        subst hd
        simpa using hw

theorem collapseWsL_wsNormal (l : List Char) : WsNormal (collapseWsL l) :=
  (collapseWsGo_wsNormal l false).1

theorem chain'_dropWhile {α : Type} {R : α → α → Prop} (p : α → Bool) :
    ∀ l : List α, List.Chain' R l → List.Chain' R (l.dropWhile p) := by
  intro l
  induction l with
  | nil => intro h; exact h
  | cons c rest ih =>
    intro h
    by_cases hc : p c
    · rw [List.dropWhile_cons_of_pos hc]
      exact ih (List.chain'_cons'.mp h).2
    · rw [List.dropWhile_cons_of_neg hc]
      exact h

theorem chain'_reverse_of_symm {α : Type} {R : α → α → Prop}
    (hsymm : ∀ a b, R a b → R b a) {l : List α} (h : List.Chain' R l) :
    List.Chain' R l.reverse := by
  rw [List.chain'_reverse]
  exact List.Chain'.imp (fun a b hab => hsymm a b hab) h

theorem wsNormal_reverse {l : List Char} (h : WsNormal l) : WsNormal l.reverse := by
  refine ⟨?_, ?_⟩
  · intro c hc
    exact h.1 c (List.mem_reverse.mp hc)
  · exact chain'_reverse_of_symm (fun a b hab => hab.symm) h.2

theorem wsNormal_dropWhile {l : List Char} (h : WsNormal l) :
    WsNormal (l.dropWhile jsWhitespace) := by
  refine ⟨?_, chain'_dropWhile _ l h.2⟩
  intro c hc
  exact h.1 c ((List.dropWhile_sublist _).mem hc)

theorem wsNormal_jsTrimL {l : List Char} (h : WsNormal l) : WsNormal (jsTrimL l) :=
  wsNormal_reverse (wsNormal_dropWhile (wsNormal_reverse (wsNormal_dropWhile h)))

theorem collapseWsGo_eq_self :
    ∀ l : List Char, WsNormal l →
      ∀ b : Bool, (∀ c, l.head? = some c → jsWhitespace c = true → b = false) →
      collapseWsGo b l = l := by
  intro l
  induction l with
  | nil => intro _ b _; rfl
  | cons c rest ih =>
    intro h b hb
    obtain ⟨hmem, hchain⟩ := h
    have hrest : WsNormal rest :=
      ⟨fun d hd => hmem d (List.mem_cons_of_mem c hd), (List.chain'_cons'.mp hchain).2⟩
    by_cases hw : jsWhitespace c
    · have hb' : b = false := hb c rfl hw
      subst hb'
      rw [show collapseWsGo false (c :: rest) = ' ' :: collapseWsGo true rest by
        rw [collapseWsGo, if_pos hw, if_neg (by simp)]]
      have hsp : c = ' ' := hmem c (by simp) hw
      have htail : collapseWsGo true rest = rest := by
        refine ih hrest true ?_
        intro d hd hwd
        rcases (List.chain'_cons'.mp hchain).1 d hd with hcf | hdf
        · exact absurd hw (by simp [hcf])
        · exact absurd hwd (by simp [hdf])
      rw [htail, hsp]
    · rw [show collapseWsGo b (c :: rest) = c :: collapseWsGo false rest by
        rw [collapseWsGo, if_neg hw]]
      rw [ih hrest false (fun _ _ _ => rfl)]

/-- The whitespace normalization of `docxToElements` is idempotent: applying
`replace(/\s+/g," ").trim()` to its own output changes nothing. -/
theorem normWsTextL_idem (l : List Char) :
    normWsTextL (normWsTextL l) = normWsTextL l := by
  have h1 : WsNormal (jsTrimL (collapseWsL l)) :=
    wsNormal_jsTrimL (collapseWsL_wsNormal l)
  have h2 : collapseWsL (jsTrimL (collapseWsL l)) = jsTrimL (collapseWsL l) :=
    collapseWsGo_eq_self _ h1 false (fun _ _ _ => rfl)
  show jsTrimL (collapseWsL (jsTrimL (collapseWsL l))) = jsTrimL (collapseWsL l)
  rw [h2, jsTrimL_idem]

/-! ## Heading heuristic and paragraph/div classification
(source lines 65-78 and 114-132) -/

/-- Sentence-terminating punctuation, the class `[.!?…]`. -/
def isSentPunc (c : Char) : Bool := c = '.' || c = '!' || c = '?' || c = '…'

/-- Test of `/[.!?…]$/`. -/
def endsSentPunc (l : List Char) : Bool :=
  match l.getLast? with
  | some c => isSentPunc c
  | none => false

/-- The character class `[A-ZÇĞIÖŞÜ]` (the `I` is inside `A-Z`). -/
def isUpperCls (c : Char) : Bool :=
  ('A' ≤ c && c ≤ 'Z') || c = 'Ç' || c = 'Ğ' || c = 'Ö' || c = 'Ş' || c = 'Ü'

/-- Count of `t.match(/[A-ZÇĞIÖŞÜ]/g)`. -/
def countCaps (l : List Char) : Nat := l.countP isUpperCls

def jsDigit (c : Char) : Bool := '0' ≤ c && c ≤ '9'

/-- Test of `/^[0-9]+\)/`: one or more leading digits followed by a closing
parenthesis. -/
def enumParen (l : List Char) : Bool :=
  decide (l.takeWhile jsDigit ≠ []) && decide ((l.dropWhile jsDigit).head? = some ')')

def isRomanChar (c : Char) : Bool := c = 'I' || c = 'V' || c = 'X'

/-- Test of `/^[IVX]+\./`. -/
def romanDot (l : List Char) : Bool :=
  decide (l.takeWhile isRomanChar ≠ []) && decide ((l.dropWhile isRomanChar).head? = some '.')

/-- `looksLikeHeadingText`.  `Math.floor(t.length * 0.4)` is embedded as
`2 * len / 5` in `Nat`: for every relevant length the JS double computation
`len * 0.4` differs from the rational `2*len/5` by less than the distance to
the nearest integer below, so both floors agree. -/
def looksLikeHeadingTextL (text : List Char) : Bool :=
  let t := jsTrimL (collapseWsL text)
  if t.isEmpty then false
  else if t.length ≤ 2 then false
  else
    let hasPuncEnd := endsSentPunc t
    let hasManyCaps := decide (min 6 (2 * t.length / 5) ≤ countCaps t)
    let isShort := decide (t.length ≤ 70)
    isShort && !hasPuncEnd && (hasManyCaps || enumParen t || romanDot t)

def looksLikeHeadingText (s : String) : Bool := looksLikeHeadingTextL s.toList

/-- `isLikelyCheckbox`: the trimmed text starts with a checkbox/bullet glyph. -/
def isLikelyCheckbox (s : String) : Bool :=
  match jsTrimL s.toList with
  | [] => false
  | c :: _ => c = '☐' || c = '☑' || c = '□' || c = '✓' || c = '•'

/-- One literal-character global replacement, used by `escapeHtml`. -/
def replaceCharAll (c : Char) (rep : List Char) : List Char → List Char
  | [] => []
  | d :: rest =>
    if d = c then rep ++ replaceCharAll c rep rest
    else d :: replaceCharAll c rep rest

/-- `escapeHtml`: the five sequential global replacements, ampersand first. -/
def escapeHtmlL (l : List Char) : List Char :=
  replaceCharAll '\'' "&#039;".toList
    (replaceCharAll '"' "&quot;".toList
      (replaceCharAll '>' "&gt;".toList
        (replaceCharAll '<' "&lt;".toList
          (replaceCharAll '&' "&amp;".toList l))))

def escapeHtml (s : String) : String := ⟨escapeHtmlL s.toList⟩

/-- The `p`/`div` branch of `docxToElements` (lines 114-132): normalize the
plain text; drop the node if empty; promote to a level-2 heading on the
heuristic, storing the escaped plain text; otherwise classify as checkbox or
paragraph keeping the raw inner markup.  `uid()` ids are random and irrelevant
to classification; they are embedded as `""`. -/
def classifyParaDiv (raw plain : String) : Option DocElement :=
  if normWsText plain = "" then none
  else if looksLikeHeadingText (normWsText plain) then
    some (.heading "" 2 (escapeHtml (normWsText plain)))
  else if isLikelyCheckbox (normWsText plain) then some (.checkbox "" raw)
  else some (.paragraph "" raw)

theorem string_mk_eq_empty_iff (l : List Char) : (⟨l⟩ : String) = "" ↔ l = [] := by
  constructor
  · intro h
    exact congrArg String.data h
  · intro h
    subst h
    rfl

/-- Characterization of the heading heuristic on a text already in normalized
form (every normalization output is such, by `normWsTextL_idem`). -/
theorem looksLikeL_iff (v : List Char) (hfix : jsTrimL (collapseWsL v) = v)
    (hne : v ≠ []) :
    looksLikeHeadingTextL v = true
      ↔ (2 < v.length ∧ v.length ≤ 70 ∧ endsSentPunc v = false
          ∧ (min 6 (2 * v.length / 5) ≤ countCaps v
              ∨ enumParen v = true ∨ romanDot v = true)) := by
  unfold looksLikeHeadingTextL
  rw [hfix, if_neg (fun hemp => hne (List.isEmpty_iff.mp hemp))]
  by_cases h2 : v.length ≤ 2
  · rw [if_pos h2]
    constructor
    · intro h; simp at h
    · rintro ⟨hgt, -⟩; exact absurd hgt (by omega)
  · rw [if_neg h2]
    simp only [Bool.and_eq_true, Bool.or_eq_true, decide_eq_true_eq,
      Bool.not_eq_true']
    constructor
    · rintro ⟨⟨hshort, hpunc⟩, hd⟩
      exact ⟨by omega, hshort, hpunc, or_assoc.mp hd⟩
    · rintro ⟨-, hshort, hpunc, hd⟩
      exact ⟨⟨hshort, hpunc⟩, or_assoc.mpr hd⟩

/-- C7 counterexample: the single-letter paragraph text "A" satisfies every
condition of the claim (non-empty, length at most 70, no terminal punctuation,
uppercase count 1 at least min(6, 40% of 1) = 0), yet the code classifies it
as a paragraph, not a heading, because of the unstated `t.length <= 2` guard. -/
theorem C7_counterexample :
    classifyParaDiv "A" "A" = some (DocElement.paragraph "" "A")
      ∧ normWsText "A" ≠ ""
      ∧ (normWsText "A").toList.length ≤ 70
      ∧ endsSentPunc (normWsText "A").toList = false
      ∧ min 6 (2 * (normWsText "A").toList.length / 5)
          ≤ countCaps (normWsText "A").toList := by
  refine ⟨by decide, by decide, by decide, by decide, by decide⟩

/-- C7 (amended): a paragraph/div node with non-empty whitespace-normalized
plain text `t` is promoted to a level-2 heading with content `escapeHtml t`
if and only if `t` is longer than 2 characters, at most 70 characters, does
not end in sentence punctuation, and has at least `min(6, floor(0.4*len))`
uppercase-class letters or a digits-`)` prefix or a roman-numeral-`.` prefix.
The original claim omitted the `length > 2` requirement. -/
theorem C7_heading_promotion (raw plain : String) (hne : normWsText plain ≠ "") :
    (classifyParaDiv raw plain
        = some (DocElement.heading "" 2 (escapeHtml (normWsText plain))))
      ↔ (2 < (normWsText plain).toList.length
          ∧ (normWsText plain).toList.length ≤ 70
          ∧ endsSentPunc (normWsText plain).toList = false
          ∧ (min 6 (2 * (normWsText plain).toList.length / 5)
                ≤ countCaps (normWsText plain).toList
              ∨ enumParen (normWsText plain).toList = true
              ∨ romanDot (normWsText plain).toList = true)) := by
  have hlist : normWsTextL plain.toList ≠ [] := by
    intro h0
    exact hne ((string_mk_eq_empty_iff _).mpr h0)
  rw [show (normWsText plain).toList = normWsTextL plain.toList from rfl]
  have hlooks := looksLikeL_iff (normWsTextL plain.toList)
    (normWsTextL_idem plain.toList) hlist
  have hcl : classifyParaDiv raw plain
      = (if looksLikeHeadingText (normWsText plain) then
          some (DocElement.heading "" 2 (escapeHtml (normWsText plain)))
        else if isLikelyCheckbox (normWsText plain) then
          some (DocElement.checkbox "" raw)
        else some (DocElement.paragraph "" raw)) := by
    rw [classifyParaDiv, if_neg hne]
  rw [hcl]
  by_cases hl : looksLikeHeadingText (normWsText plain)
  · rw [if_pos hl]
    constructor
    · intro _
      exact hlooks.mp hl
    · intro _
      rfl
  · rw [if_neg hl]
    constructor
    · intro h
      by_cases hcb : isLikelyCheckbox (normWsText plain)
      · rw [if_pos hcb] at h
        cases h
      · rw [if_neg hcb] at h
        cases h
    · intro h
      exact absurd (hlooks.mpr h) hl

/-- C7 witness: the theorem applied to the concrete text "MADDE 1", which the
heuristic promotes to a heading. -/
theorem C7_witness :
    classifyParaDiv "MADDE 1" "MADDE 1"
      = some (DocElement.heading "" 2 (escapeHtml (normWsText "MADDE 1"))) :=
  (C7_heading_promotion "MADDE 1" "MADDE 1" (by decide)).mpr
    ⟨by decide, by decide, by decide, Or.inl (by decide)⟩

/-! ## Text transform (source lines 35-48)

`transformText` is a fixed sequence of eight global regex replacements.  Each
is embedded as a left-to-right scanner over the code points; matches never
have zero width, and none of the patterns needs regex backtracking (every
greedy run is followed either by nothing or by a token that cannot begin with
a character of the run), so maximal-munch scanning is exact.  The scanners
carry a skip counter so that recursion is structural on the input list: after
a match of `k` characters, the scanner emits the replacement, then counts the
remaining `k - 1` characters down one at a time without emitting them. -/

/-- JS multiline `^` matches at position 0 and after a line terminator. -/
def isLineTerm (c : Char) : Bool :=
  c = '\n' || c = '\r' || c = '\u2028' || c = '\u2029'

/-- ECMA-262 `Canonicalize` for case-insensitive (non-unicode) matching:
uppercase a character unless it is non-ASCII and its uppercase is ASCII (which
is why `'ı'` does not match `'I'` and the source lists Turkish unit words in
both cases).  Only the characters appearing in the patterns and in Turkish
text need non-trivial mappings. -/
def canonChar (c : Char) : Char :=
  if 'a' ≤ c && c ≤ 'z' then Char.ofNat (c.toNat - 32)
  else if c = 'ç' then 'Ç'
  else if c = 'ğ' then 'Ğ'
  else if c = 'ö' then 'Ö'
  else if c = 'ş' then 'Ş'
  else if c = 'ü' then 'Ü'
  else c

/-- Case-insensitive literal match of `pat` at the head of `l`. -/
def matchesCI (pat l : List Char) : Bool :=
  decide (pat.length ≤ l.length)
    && decide ((l.take pat.length).map canonChar = pat.map canonChar)

/-- Replacement span prefix shared by the glyph substitutions. -/
def emoSpanPre : List Char :=
  "<span style=\"font-family: Apple Color Emoji; font-size: 8.5pt;\">".toList

def spanClose : List Char := "</span>".toList

def diamondRep : List Char := emoSpanPre ++ "💎".toList ++ spanClose

def gemRep : List Char := emoSpanPre ++ "🔮".toList ++ spanClose

def flagLineRep : List Char := emoSpanPre ++ "🇹🇷".toList ++ spanClose ++ [' ']

def flagBrRep : List Char := "<br/>".toList ++ flagLineRep

def starLineRep : List Char := emoSpanPre ++ "⭐️".toList ++ spanClose ++ [' ']

def starBrRep : List Char := "<br/>".toList ++ starLineRep

/-- `result.replace(/=>/g, diamond span)`. -/
def replArrow : List Char → List Char
  | '=' :: '>' :: rest => diamondRep ++ replArrow rest
  | c :: rest => c :: replArrow rest
  | [] => []

/-- Line-start flag for the position following a consumed whitespace run. -/
def nextLineStart (consumedWs : List Char) : Bool :=
  match consumedWs.getLast? with
  | some c => isLineTerm c
  | none => false

/-- Scanner of `result.replace(/^M\s*`/gm, rep)` for a marker character `M`
(`-` or `*`): at a line start, the marker and the following whitespace run
(which, via `\s`, may span line breaks) are replaced by `rep`.  While the
skip counter is positive the scanner is inside the consumed whitespace run;
the line-start flag for the position after the run is precomputed. -/
def replLineMarkGo (mark : Char) (rep : List Char) :
    Nat → Bool → List Char → List Char
  | _, _, [] => []
  | n+1, ls, _ :: rest => replLineMarkGo mark rep n ls rest
  | 0, ls, c :: rest =>
    if ls = true ∧ c = mark then
      rep ++ replLineMarkGo mark rep (rest.takeWhile jsWhitespace).length
        (nextLineStart (rest.takeWhile jsWhitespace)) rest
    else c :: replLineMarkGo mark rep 0 (isLineTerm c) rest

def replLineMark (mark : Char) (rep : List Char) (l : List Char) : List Char :=
  replLineMarkGo mark rep 0 true l

/-- Optional `/` of `/<br\s*\/?>/`. -/
def eatSlash (l : List Char) : List Char :=
  if l.head? = some '/' then l.tail else l

/-- Tail of the `/<br\s*\/?>\s*M\s*/i` matcher, applied after the literal
`<br`; `l` is the input after those three characters. -/
def brTail (mark : Char) (l : List Char) : Option (List Char) :=
  match eatSlash (l.dropWhile jsWhitespace) with
  | [] => none
  | c0 :: r3 =>
    if c0 = '>' then
      match r3.dropWhile jsWhitespace with
      | [] => none
      | c :: r5 => if c = mark then some (r5.dropWhile jsWhitespace) else none
    else none

/-- Matcher of `/<br\s*\/?>\s*M\s*/i` at the head of `l`; returns the suffix
after the match. -/
def matchBrMark (mark : Char) (l : List Char) : Option (List Char) :=
  if matchesCI "<br".toList l then brTail mark (l.drop 3) else none

/-- Scanner of `result.replace(/<br\s*\/?>\s*M\s*`/gi, rep)` for marker `M`. -/
def replBrMarkGo (mark : Char) (rep : List Char) : Nat → List Char → List Char
  | _, [] => []
  | n+1, _ :: rest => replBrMarkGo mark rep n rest
  | 0, c :: rest =>
    match matchBrMark mark (c :: rest) with
    | some r => rep ++ replBrMarkGo mark rep (rest.length - r.length) rest
    | none => c :: replBrMarkGo mark rep 0 rest

def replBrMark (mark : Char) (rep : List Char) (l : List Char) : List Char :=
  replBrMarkGo mark rep 0 l

/-- Ordered alternation of case-insensitive literal words, as in a regex
group: the first word of the list matching at the head of `l` wins; returns
the matched original text and the suffix. -/
def findWordCI (words : List (List Char)) (l : List Char) :
    Option (List Char × List Char) :=
  match words with
  | [] => none
  | w :: ws =>
    if matchesCI w l then some (l.take w.length, l.drop w.length)
    else findWordCI ws l

/-- The alternation of `timeUnits`, in source order. -/
def timeUnitWords : List (List Char) :=
  ["yıl", "yıllık", "ay", "aylık", "hafta", "haftalık", "gün", "günlük",
    "YIL", "YILLIK", "AY", "AYLIK", "HAFTA", "HAFTALIK", "GÜN",
    "GÜNLÜK"].map String.toList

def timeSpanPre : List Char :=
  "<span style=\"color: rgb(236, 102, 65); background: rgb(204, 255, 255); padding: 1px 4px; border-radius: 3px;\">".toList

/-- Matcher of `timeUnits = /(\d+)\s*(unit words)/gi` at the head of `l`;
returns (`$1`, `$2`, suffix). -/
def matchTimeUnit (l : List Char) : Option (List Char × List Char × List Char) :=
  if (l.takeWhile jsDigit).isEmpty then none
  else
    match findWordCI timeUnitWords ((l.dropWhile jsDigit).dropWhile jsWhitespace) with
    | some (u, rest) => some (l.takeWhile jsDigit, u, rest)
    | none => none

/-- Scanner of `result.replace(timeUnits, span with two spaces between $1 and
$2)`. -/
def replTimeUnitsGo : Nat → List Char → List Char
  | _, [] => []
  | n+1, _ :: rest => replTimeUnitsGo n rest
  | 0, c :: rest =>
    match matchTimeUnit (c :: rest) with
    | some (digits, u, r) =>
      timeSpanPre ++ digits ++ "  ".toList ++ u ++ spanClose
        ++ replTimeUnitsGo (rest.length - r.length) rest
    | none => c :: replTimeUnitsGo 0 rest

def replTimeUnits (l : List Char) : List Char := replTimeUnitsGo 0 l

def timeExprUnits : List (List Char) :=
  ["YILDAN", "AYDAN", "HAFTADAN", "GÜNDEN"].map String.toList

def timeExprComps : List (List Char) := ["FAZLA", "ÇOK", "AZ"].map String.toList

/-- Matcher of `timeExpressions = /(\d+)\s*(YILDAN|AYDAN|HAFTADAN|GÜNDEN)\s*(FAZLA|ÇOK|AZ)/gi`;
returns (`$1`, `$2`, `$3`, suffix). -/
def matchTimeExpr (l : List Char) :
    Option (List Char × List Char × List Char × List Char) :=
  if (l.takeWhile jsDigit).isEmpty then none
  else
    match findWordCI timeExprUnits ((l.dropWhile jsDigit).dropWhile jsWhitespace) with
    | none => none
    | some (u, r3) =>
      match findWordCI timeExprComps (r3.dropWhile jsWhitespace) with
      | none => none
      | some (comp, r5) => some (l.takeWhile jsDigit, u, comp, r5)

/-- Scanner of `result.replace(timeExpressions, span keeping all three
groups)`. -/
def replTimeExprGo : Nat → List Char → List Char
  | _, [] => []
  | n+1, _ :: rest => replTimeExprGo n rest
  | 0, c :: rest =>
    match matchTimeExpr (c :: rest) with
    | some (digits, u, comp, r) =>
      timeSpanPre ++ digits ++ "  ".toList ++ u ++ [' '] ++ comp ++ spanClose
        ++ replTimeExprGo (rest.length - r.length) rest
    | none => c :: replTimeExprGo 0 rest

def replTimeExpr (l : List Char) : List Char := replTimeExprGo 0 l

/-- `transformText`: the eight replacements in source order. -/
def transformTextL (l : List Char) : List Char :=
  replTimeExpr
    (replTimeUnits
      (replBrMark '*' starBrRep
        (replLineMark '*' starLineRep
          (replBrMark '-' flagBrRep
            (replLineMark '-' flagLineRep
              (replaceCharAll '•' gemRep
                (replArrow l)))))))

def transformText (s : String) : String := ⟨transformTextL s.toList⟩

/-! ## Sentence segmenter: `splitIntoSentences` (source lines 50-63) -/

/-- Lookahead of the split separator: the remaining input starts with a
non-empty whitespace run followed by a non-whitespace character. -/
def wsThenNonWs (l : List Char) : Bool :=
  decide (l.takeWhile jsWhitespace ≠ []) && decide (l.dropWhile jsWhitespace ≠ [])

/-- The scan of `text.split(/(?<=[.!?…])\s+(?=[^\s])/g)`: a separator is a
maximal whitespace run preceded by sentence punctuation and followed by a
non-whitespace character; the punctuation mark stays with the fragment before
the run, the run itself is consumed (skipped via the counter). -/
def splitGo : Nat → List Char → List Char → List (List Char)
  | _, cur, [] => [cur]
  | n+1, cur, _ :: rest => splitGo n cur rest
  | 0, cur, c :: rest =>
    if isSentPunc c && wsThenNonWs rest then
      (cur ++ [c]) :: splitGo (rest.takeWhile jsWhitespace).length [] rest
    else splitGo 0 (cur ++ [c]) rest

def sentencePartsL (l : List Char) : List (List Char) := splitGo 0 [] l

/-- The class `[()\[\]`{}-–—:]` of lone characters skipped by the segmenter. -/
def isNoiseSingle (c : Char) : Bool :=
  c = '(' || c = ')' || c = '[' || c = ']' || c = '\x7b' || c = '\x7d' ||
  c = '-' || c = '–' || c = '—' || c = ':'

/-- `splitIntoSentences`: trim; empty gives `[]`; split; per fragment trim,
drop a lone bracket/dash/colon, transform; drop empties (`filter(Boolean)`). -/
def splitIntoSentences (htmlText : String) : List String :=
  let text := jsTrimL htmlText.toList
  if text.isEmpty then []
  else
    ((sentencePartsL text).map (fun p =>
        let trimmed := jsTrimL p
        if trimmed.length = 1 ∧ isNoiseSingle (trimmed.headD ' ') = true then []
        else transformTextL trimmed)).filterMap
      (fun r => if r.isEmpty then none else some (⟨r⟩ : String))

/-! ## C6: characterization of the sentence split -/

theorem sentPunc_not_ws {c : Char} (h : isSentPunc c = true) :
    jsWhitespace c = false := by
  simp only [isSentPunc, Bool.or_eq_true, decide_eq_true_eq] at h
  rcases h with ((rfl | rfl) | rfl) | rfl <;> decide

theorem splitGo_drop (s : List Char) : ∀ (n : Nat) (cur : List Char),
    splitGo n cur s = splitGo 0 cur (s.drop n) := by
  induction s with
  | nil =>
    intro n cur
    cases n <;> rfl
  | cons c rest ih =>
    intro n cur
    cases n with
    | zero => rfl
    | succ n =>
      show splitGo n cur rest = _
      rw [ih n cur]
      rfl

theorem drop_length_takeWhile (p : Char → Bool) (l : List Char) :
    l.drop (l.takeWhile p).length = l.dropWhile p := by
  induction l with
  | nil => rfl
  | cons c rest ih =>
    by_cases hc : p c
    · rw [List.takeWhile_cons_of_pos hc, List.dropWhile_cons_of_pos hc]
      simpa using ih
    · rw [List.takeWhile_cons_of_neg hc, List.dropWhile_cons_of_neg hc]
      rfl

theorem splitGo_cons_pos (c : Char) (rest cur : List Char)
    (h : (isSentPunc c && wsThenNonWs rest) = true) :
    splitGo 0 cur (c :: rest)
      = (cur ++ [c]) :: splitGo 0 [] (rest.dropWhile jsWhitespace) := by
  show (if isSentPunc c && wsThenNonWs rest then
      (cur ++ [c]) :: splitGo (rest.takeWhile jsWhitespace).length [] rest
    else splitGo 0 (cur ++ [c]) rest) = _
  rw [if_pos h, splitGo_drop, drop_length_takeWhile]

theorem splitGo_cons_neg (c : Char) (rest cur : List Char)
    (h : ¬(isSentPunc c && wsThenNonWs rest) = true) :
    splitGo 0 cur (c :: rest) = splitGo 0 (cur ++ [c]) rest := by
  show (if isSentPunc c && wsThenNonWs rest then
      (cur ++ [c]) :: splitGo (rest.takeWhile jsWhitespace).length [] rest
    else splitGo 0 (cur ++ [c]) rest) = _
  rw [if_neg h]

/-- The relation between an input and a fragment list: the fragments are the
input cut at separators, where each separator is a non-empty whitespace run
preceded by sentence punctuation (which stays attached to the fragment on its
left) and followed by a non-whitespace character. -/
inductive SplitsInto : List Char → List (List Char) → Prop
  | last (p : List Char) : SplitsInto p [p]
  | step (a : List Char) (t : Char) (sep rest : List Char) (ps : List (List Char))
      (hpunc : isSentPunc t = true)
      (hsep : sep ≠ []) (hws : ∀ c ∈ sep, jsWhitespace c = true)
      (hrest : rest ≠ [])
      (hhead : ∀ d, rest.head? = some d → jsWhitespace d = false)
      (htail : SplitsInto rest ps) :
      SplitsInto (a ++ t :: (sep ++ rest)) ((a ++ [t]) :: ps)

theorem splitGo_sound : ∀ (n : Nat) (s : List Char), s.length ≤ n →
    ∀ cur, SplitsInto (cur ++ s) (splitGo 0 cur s) := by
  intro n
  induction n with
  | zero =>
    intro s hs cur
    have hnil : s = [] := List.length_eq_zero.mp (Nat.le_zero.mp hs)
    subst hnil
    simpa using SplitsInto.last cur
  | succ n ih =>
    intro s hs cur
    cases s with
    | nil => simpa using SplitsInto.last cur
    | cons c rest =>
      by_cases hg : (isSentPunc c && wsThenNonWs rest) = true
      · rw [splitGo_cons_pos c rest cur hg]
        have hand := (Bool.and_eq_true _ _).mp hg
        have hws2 := hand.2
        simp only [wsThenNonWs, Bool.and_eq_true, decide_eq_true_eq] at hws2
        have hrec : SplitsInto (rest.dropWhile jsWhitespace)
            (splitGo 0 [] (rest.dropWhile jsWhitespace)) := by
          have hlen : (rest.dropWhile jsWhitespace).length ≤ n := by
            have h1 := length_dropWhile_le' jsWhitespace rest
            simp only [List.length_cons] at hs
            omega
          simpa using ih (rest.dropWhile jsWhitespace) hlen []
        have hstep := SplitsInto.step cur c (rest.takeWhile jsWhitespace)
          (rest.dropWhile jsWhitespace) (splitGo 0 [] (rest.dropWhile jsWhitespace))
          hand.1 hws2.1 (fun x hx => List.mem_takeWhile_imp hx) hws2.2
          (fun d hd => head?_dropWhile_false jsWhitespace rest d hd) hrec
        rwa [List.takeWhile_append_dropWhile jsWhitespace rest] at hstep
      · rw [splitGo_cons_neg c rest cur hg]
        have hlen : rest.length ≤ n := by
          simp only [List.length_cons] at hs
          omega
        have := ih rest hlen (cur ++ [c])
        simpa [List.append_assoc] using this

theorem sentencePartsL_sound (l : List Char) : SplitsInto l (sentencePartsL l) := by
  have := splitGo_sound l.length l le_rfl []
  simpa using this

/-- A missed split point inside a fragment: sentence punctuation followed by a
non-empty whitespace run followed by a non-whitespace character. -/
def SplitBoundary (l : List Char) : Prop :=
  ∃ a t w d b, l = a ++ t :: (w ++ d :: b)
    ∧ isSentPunc t = true ∧ w ≠ [] ∧ (∀ c ∈ w, jsWhitespace c = true)
    ∧ jsWhitespace d = false

def EndsTermWs (l : List Char) : Prop :=
  ∃ a t w, l = a ++ t :: w ∧ isSentPunc t = true ∧ w ≠ []
    ∧ ∀ c ∈ w, jsWhitespace c = true

def EndsTerm (l : List Char) : Prop :=
  ∃ a t, l = a ++ [t] ∧ isSentPunc t = true

theorem append_singleton_inj {α : Type} {l m : List α} {a b : α}
    (h : l ++ [a] = m ++ [b]) : l = m ∧ a = b := by
  have h2 := congrArg List.reverse h
  simp only [List.reverse_append, List.reverse_singleton, List.singleton_append,
    List.cons.injEq, List.reverse_inj] at h2
  exact ⟨h2.2, h2.1⟩

theorem not_splitBoundary_nil : ¬SplitBoundary [] := by
  rintro ⟨a, t, w, d, b, h, -⟩
  have := congrArg List.length h
  simp [List.length_append] at this
  omega

theorem not_endsTermWs_nil : ¬EndsTermWs [] := by
  rintro ⟨a, t, w, h, -⟩
  have := congrArg List.length h
  simp [List.length_append] at this
  omega

theorem not_endsTerm_nil : ¬EndsTerm [] := by
  rintro ⟨a, t, h, -⟩
  have := congrArg List.length h
  simp [List.length_append] at this

theorem endsTerm_append (l : List Char) (c : Char) :
    EndsTerm (l ++ [c]) ↔ isSentPunc c = true := by
  constructor
  · rintro ⟨a, t, h, hp⟩
    obtain ⟨h1, h2⟩ := append_singleton_inj h
    subst h2
    exact hp
  · intro hp
    exact ⟨l, c, rfl, hp⟩

theorem endsTermWs_append (l : List Char) (c : Char) :
    EndsTermWs (l ++ [c])
      ↔ jsWhitespace c = true ∧ (EndsTermWs l ∨ EndsTerm l) := by
  constructor
  · rintro ⟨a, t, w, h, hp, hwne, hws⟩
    rcases List.eq_nil_or_concat w with rfl | ⟨w', c', rfl⟩
    · exact absurd rfl hwne
    · rw [List.concat_eq_append] at h hws
      have h' : l ++ [c] = (a ++ t :: w') ++ [c'] := by
        simpa [List.append_assoc] using h
      obtain ⟨h1, h2⟩ := append_singleton_inj h'
      subst h2
      subst h1
      refine ⟨hws c (by simp), ?_⟩
      by_cases hw0 : w' = []
      · subst hw0
        right
        exact ⟨a, t, by simp, hp⟩
      · left
        exact ⟨a, t, w', rfl, hp, hw0, fun x hx => hws x (by simp [hx])⟩
  · rintro ⟨hwc, hcase | hcase⟩
    · obtain ⟨a, t, w, rfl, hp, hwne, hws⟩ := hcase
      refine ⟨a, t, w ++ [c], by simp, hp, by simp, ?_⟩
      intro x hx
      rcases List.mem_append.mp hx with hx | hx
      · exact hws x hx
      · rw [List.mem_singleton] at hx
        subst hx
        exact hwc
    · obtain ⟨a, t, rfl, hp⟩ := hcase
      refine ⟨a, t, [c], by simp, hp, by simp, ?_⟩
      intro x hx
      rw [List.mem_singleton] at hx
      subst hx
      exact hwc

theorem splitBoundary_append (l : List Char) (c : Char) :
    SplitBoundary (l ++ [c])
      ↔ SplitBoundary l ∨ (jsWhitespace c = false ∧ EndsTermWs l) := by
  constructor
  · rintro ⟨a, t, w, d, b, h, hp, hwne, hws, hd⟩
    rcases List.eq_nil_or_concat b with rfl | ⟨b', c', rfl⟩
    · have h' : l ++ [c] = (a ++ t :: w) ++ [d] := by
        simpa [List.append_assoc] using h
      obtain ⟨h1, h2⟩ := append_singleton_inj h'
      subst h2
      subst h1
      exact Or.inr ⟨hd, a, t, w, rfl, hp, hwne, hws⟩
    · rw [List.concat_eq_append] at h
      have h' : l ++ [c] = (a ++ t :: (w ++ d :: b')) ++ [c'] := by
        simpa [List.append_assoc] using h
      obtain ⟨h1, h2⟩ := append_singleton_inj h'
      subst h1
      exact Or.inl ⟨a, t, w, d, b', rfl, hp, hwne, hws, hd⟩
  · rintro (⟨a, t, w, d, b, rfl, hp, hwne, hws, hd⟩ | ⟨hwc, a, t, w, rfl, hp, hwne, hws⟩)
    · exact ⟨a, t, w, d, b ++ [c], by simp, hp, hwne, hws, hd⟩
    · exact ⟨a, t, w, c, [], by simp, hp, hwne, hws, hwc⟩

/-- Scan invariant for completeness: the current fragment holds no missed
boundary, and if it ends in punctuation-plus-whitespace the rest of the input
cannot supply the non-whitespace lookahead. -/
def SplitInv (cur s : List Char) : Prop :=
  ¬SplitBoundary cur
    ∧ (EndsTermWs cur → ∀ x ∈ s, jsWhitespace x = true)
    ∧ (EndsTerm cur → (∀ d, s.head? = some d → jsWhitespace d = true) →
        ∀ x ∈ s, jsWhitespace x = true)

theorem splitGo_complete : ∀ (n : Nat) (s : List Char), s.length ≤ n →
    ∀ cur, SplitInv cur s → ∀ p ∈ splitGo 0 cur s, ¬SplitBoundary p := by
  intro n
  induction n with
  | zero =>
    intro s hs cur hinv p hp
    have hnil : s = [] := List.length_eq_zero.mp (Nat.le_zero.mp hs)
    subst hnil
    simp only [splitGo, List.mem_singleton] at hp
    subst hp
    exact hinv.1
  | succ n ih =>
    intro s hs cur hinv p hp
    cases s with
    | nil =>
      simp only [splitGo, List.mem_singleton] at hp
      subst hp
      exact hinv.1
    | cons c rest =>
      obtain ⟨hnb, hitw, hit⟩ := hinv
      by_cases hg : (isSentPunc c && wsThenNonWs rest) = true
      · rw [splitGo_cons_pos c rest cur hg] at hp
        have hand := (Bool.and_eq_true _ _).mp hg
        have hcws : jsWhitespace c = false := sentPunc_not_ws hand.1
        have hnotEtw : ¬EndsTermWs cur := fun he =>
          absurd (hitw he c (List.mem_cons_self c rest)) (by simp [hcws])
        rcases List.mem_cons.mp hp with rfl | hp
        · intro hb
          rcases (splitBoundary_append cur c).mp hb with hb' | ⟨-, hetw⟩
          · exact hnb hb'
          · exact hnotEtw hetw
        · refine ih (rest.dropWhile jsWhitespace) ?_ []
            ⟨not_splitBoundary_nil, fun he => absurd he not_endsTermWs_nil,
              fun he _ => absurd he not_endsTerm_nil⟩ p hp
          have h1 := length_dropWhile_le' jsWhitespace rest
          simp only [List.length_cons] at hs
          omega
      · rw [splitGo_cons_neg c rest cur hg] at hp
        refine ih rest ?_ (cur ++ [c]) ⟨?_, ?_, ?_⟩ p hp
        · simp only [List.length_cons] at hs
          omega
        · intro hb
          rcases (splitBoundary_append cur c).mp hb with hb' | ⟨hcf, hetw⟩
          · exact hnb hb'
          · exact absurd (hitw hetw c (List.mem_cons_self c rest)) (by simp [hcf])
        · intro he
          rcases (endsTermWs_append cur c).mp he with ⟨hwc, he' | he'⟩
          · intro x hx
            exact hitw he' x (List.mem_cons_of_mem c hx)
          · intro x hx
            refine hit he' ?_ x (List.mem_cons_of_mem c hx)
            intro d hd
            rw [List.head?_cons, Option.some.injEq] at hd
            subst hd
            exact hwc
        · intro he hhead
          have hpc : isSentPunc c = true := (endsTerm_append cur c).mp he
          have hnw : ¬wsThenNonWs rest = true := fun hw =>
            hg (by simp [hpc, hw])
          intro x hx
          cases rest with
          | nil => exact absurd hx (List.not_mem_nil x)
          | cons d r' =>
            have hd : jsWhitespace d = true := hhead d rfl
            have htk : (List.takeWhile jsWhitespace (d :: r')) ≠ [] := by
              rw [List.takeWhile_cons_of_pos hd]
              simp
            have hdrop : List.dropWhile jsWhitespace (d :: r') = [] := by
              by_contra hne
              exact hnw (by simp [wsThenNonWs, htk, hne])
            exact List.dropWhile_eq_nil_iff.mp hdrop x hx

theorem sentencePartsL_complete (l : List Char) :
    ∀ p ∈ sentencePartsL l, ¬SplitBoundary p :=
  splitGo_complete l.length l le_rfl []
    ⟨not_splitBoundary_nil, fun he => absurd he not_endsTermWs_nil,
      fun he _ => absurd he not_endsTerm_nil⟩

/-- C6: Scenario A evaluates to exactly the two expected sentences; the
segmenter returns the empty sequence for empty or whitespace-only input; and
the underlying split is precisely the claimed one — the fragments always
reassemble the trimmed input from separators that are non-empty whitespace
runs preceded by a sentence terminator (`.` `!` `?` `…`, which stays attached
to the fragment on its left) and followed by a non-whitespace character
(soundness), and no fragment retains such a boundary inside it
(completeness). -/
theorem C6_segmenter :
    (splitIntoSentences "Hello world. This is a test."
        = ["Hello world.", "This is a test."])
      ∧ (∀ s : String, jsTrimL s.toList = [] → splitIntoSentences s = [])
      ∧ (∀ l : List Char, SplitsInto l (sentencePartsL l))
      ∧ (∀ l : List Char, ∀ p ∈ sentencePartsL l, ¬SplitBoundary p) := by
  refine ⟨by decide, ?_, sentencePartsL_sound, sentencePartsL_complete⟩
  intro s h
  simp only [splitIntoSentences]
  rw [h]
  rfl

/-- C6 witness: the empty-input case applied to a whitespace-only string. -/
theorem C6_witness : splitIntoSentences "  " = [] :=
  C6_segmenter.2.1 "  " (by decide)

/-! ## Export assembler: `getAllHighlightedText` (source lines 215-242) -/

/-- JS integer array indexing `sentences[idx]`: a negative index or one past
the end reads `undefined` (`none`). -/
def jsIndex (l : List String) (i : Int) : Option String :=
  if i < 0 then none else l.get? i.toNat

/-- JS numeric ascending sort `.slice().sort((a, b) => a - b)`. -/
def sortAsc (l : List Int) : List Int := l.insertionSort (· ≤ ·)

/-- Suffix after the first `'>'`, if any. -/
def afterGt : List Char → Option (List Char)
  | [] => none
  | c :: rest => if c = '>' then some rest else afterGt rest

/-- Scanner of `.replace(/<[^>]*>/g, "")`: each `<`...`>` region is dropped; a
`<` with no later `>` matches nothing and is kept. -/
def stripTagsGo : Nat → List Char → List Char
  | _, [] => []
  | n+1, _ :: rest => stripTagsGo n rest
  | 0, c :: rest =>
    if c = '<' then
      match afterGt rest with
      | some r => stripTagsGo (rest.length - r.length) rest
      | none => c :: stripTagsGo 0 rest
    else c :: stripTagsGo 0 rest

def stripTagsL (l : List Char) : List Char := stripTagsGo 0 l

def stripTags (s : String) : String := ⟨stripTagsL s.toList⟩

def DocElement.elId : DocElement → String
  | .heading i _ _ => i
  | .paragraph i _ => i
  | .checkbox i _ => i
  | .table i _ => i
  | .pageBreak i => i

/-- Per-element body of the export loop (source lines 219-238): the loop's
`continue` is `none`, `exported.push` is `some`.  Only paragraph and checkbox
elements with a `hasHighlight` entry contribute; their selected indices are
sorted ascending, mapped to sentence fragments (out-of-range indices read
`undefined` and are removed together with empty strings by
`.filter(Boolean)`), stripped of inline markup, joined with single spaces,
whitespace-collapsed and trimmed; an empty result is skipped. -/
def exportElement (highlights : HighlightsState) (el : DocElement) :
    Option String :=
  match el with
  | .paragraph i text | .checkbox i text =>
    match highlights i with
    | none => none
    | some eh =>
      if eh.hasHighlight then
        let sentences := splitIntoSentences text
        let picked := (sortAsc eh.sentences).filterMap
          (fun idx =>
            match jsIndex sentences idx with
            | some st => if st = "" then none else some st
            | none => none)
        if picked.isEmpty then none
        else
          let asPlain := normWsTextL
            (String.intercalate " " (picked.map stripTags)).toList
          if asPlain.isEmpty then none else some (⟨asPlain⟩ : String)
      else none
  | _ => none

/-- `getAllHighlightedText`: walk pages in order, elements in page order,
collecting each element's export entry. -/
def getAllHighlightedText (pages : List (List DocElement))
    (highlights : HighlightsState) : List String :=
  (pages.map (fun pageEls => pageEls.filterMap (exportElement highlights))).flatten

/-- Pointwise map update, the shape produced by the toggle handlers. -/
def updateEntry (m : HighlightsState) (k : String) (e : HighlightEntry) :
    HighlightsState :=
  fun k' => if k' = k then some e else m k'

theorem filterMap_orderedInsert {f : Int → Option String} (idx0 : Int)
    (hf : f idx0 = none) :
    ∀ L : List Int, (L.orderedInsert (· ≤ ·) idx0).filterMap f = L.filterMap f := by
  intro L
  induction L with
  | nil => simp [List.orderedInsert, List.filterMap_cons, hf]
  | cons a L ih =>
    by_cases hle : idx0 ≤ a
    · simp [List.orderedInsert, hle, List.filterMap_cons, hf]
    · simp only [List.orderedInsert, if_neg hle, List.filterMap_cons]
      rw [ih]

/-- C10: the export assembler silently ignores selected sentence indices that
are out of range for the sentences the segmenter currently produces (it is a
total function, so it cannot error): adding an out-of-range index to an
element's entry leaves that element's export output unchanged, and an element
all of whose selected indices are out of range contributes no export entry at
all. -/
theorem C10_out_of_range (hl : HighlightsState) (i text : String)
    (eh : HighlightEntry) (el : DocElement) (idx0 : Int)
    (hel : el = DocElement.paragraph i text ∨ el = DocElement.checkbox i text)
    (hout0 : jsIndex (splitIntoSentences text) idx0 = none) :
    ((hl i = some eh →
        (∀ idx ∈ eh.sentences, jsIndex (splitIntoSentences text) idx = none) →
        exportElement hl el = none))
      ∧ (∀ b : Bool,
          exportElement (updateEntry hl i ⟨idx0 :: eh.sentences, b⟩) el
            = exportElement (updateEntry hl i ⟨eh.sentences, b⟩) el) := by
  constructor
  · intro hhl hout
    have hpicked : ∀ idx ∈ sortAsc eh.sentences,
        (match jsIndex (splitIntoSentences text) idx with
          | some st => if st = "" then none else some st
          | none => (none : Option String)) = none := by
      intro idx hidx
      have hmem : idx ∈ eh.sentences :=
        (List.perm_insertionSort (· ≤ ·) eh.sentences).mem_iff.mp hidx
      rw [hout idx hmem]
    rcases hel with rfl | rfl
    all_goals
      simp only [exportElement, hhl]
      by_cases hb : eh.hasHighlight
      · rw [if_pos hb]
        rw [List.filterMap_eq_nil.mpr hpicked]
        rfl
      · rw [if_neg hb]
  · intro b
    have hsort : sortAsc (idx0 :: eh.sentences)
        = (sortAsc eh.sentences).orderedInsert (· ≤ ·) idx0 := rfl
    have hmaps : ((sortAsc (idx0 :: eh.sentences)).filterMap
          (fun idx =>
            match jsIndex (splitIntoSentences text) idx with
            | some st => if st = "" then none else some st
            | none => (none : Option String)))
        = ((sortAsc eh.sentences).filterMap
          (fun idx =>
            match jsIndex (splitIntoSentences text) idx with
            | some st => if st = "" then none else some st
            | none => (none : Option String))) := by
      rw [hsort]
      exact filterMap_orderedInsert idx0 (by rw [hout0]) (sortAsc eh.sentences)
    rcases hel with rfl | rfl
    all_goals
      simp only [exportElement, updateEntry, eq_self_iff_true, if_true]
      rw [hmaps]

/-- C10 witness: both indices of the entry (5 and -1) are out of range for the
two sentences of the text, so the paragraph contributes nothing. -/
theorem C10_witness :
    exportElement
        (updateEntry emptyHighlights "p1" ⟨[5, -1], true⟩)
        (DocElement.paragraph "p1" "One. Two.")
      = none :=
  (C10_out_of_range (updateEntry emptyHighlights "p1" ⟨[5, -1], true⟩)
      "p1" "One. Two." ⟨[5, -1], true⟩
      (DocElement.paragraph "p1" "One. Two.") 5
      (Or.inl rfl) (by decide)).1 rfl (by decide)

/-! ## C8: export ordering and toggle-order independence

The export output is shown to be, for every highlight map, the canonical
page-order traversal; and the map reached from the empty one by a sequence of
toggles is shown to yield the same export for any permutation of that
sequence, provided sentence toggles and cell toggles use disjoint keys (in
the application sentence toggles use paragraph/checkbox ids and cell keys
carry a `_r..._c...` suffix on a table id, so the kinds never collide). -/

def HlOp.key : HlOp → String
  | .toggleSentence i _ => i
  | .toggleCell i r c => cellKey i r c
  | .clearAll => ""

def HlOp.isClear : HlOp → Bool
  | .clearAll => true
  | _ => false

def HlOp.isSent : HlOp → Bool
  | .toggleSentence _ _ => true
  | _ => false

def HlOp.isCell : HlOp → Bool
  | .toggleCell _ _ _ => true
  | _ => false

def HlOp.idx : HlOp → Int
  | .toggleSentence _ i => i
  | _ => 0

/-- Membership flip performed by `handleSentenceClick` on the sentences list. -/
def toggleIdx (idx : Int) (s : List Int) : List Int :=
  if s.contains idx then s.filter (fun i => i ≠ idx) else s ++ [idx]

/-- Effect of one operation on the entry of a key it touches. -/
def entryStep (e : Option HighlightEntry) : HlOp → Option HighlightEntry
  | .toggleSentence _ idx =>
    some ⟨toggleIdx idx ((e.getD ⟨[], false⟩).sentences),
      decide (0 < (toggleIdx idx ((e.getD ⟨[], false⟩).sentences)).length)⟩
  | .toggleCell _ _ _ =>
    some ⟨if (e.getD ⟨[], false⟩).hasHighlight then [] else [(0 : Int)],
      !(e.getD ⟨[], false⟩).hasHighlight⟩
  | .clearAll => none

/-- An operation touches key `k` when it writes it (clearAll touches all). -/
def touches (op : HlOp) (k : String) : Bool := op.isClear || decide (k = op.key)

def replayKey (e : Option HighlightEntry) (ops : List HlOp) :
    Option HighlightEntry :=
  ops.foldl entryStep e

theorem applyOp_at (m : HighlightsState) (op : HlOp) (k : String) :
    applyOp m op k = if touches op k then entryStep (m k) op else m k := by
  cases op with
  | toggleSentence i idx =>
    simp only [applyOp, handleSentenceClick, touches, HlOp.isClear, HlOp.key,
      Bool.false_or, entryStep, toggleIdx]
    by_cases hk : k = i
    · simp [hk]
    · simp [hk]
  | toggleCell i r c =>
    simp only [applyOp, handleCellClick, touches, HlOp.isClear, HlOp.key,
      Bool.false_or, entryStep]
    by_cases hk : k = cellKey i r c
    · simp [hk]
    · simp [hk]
  | clearAll =>
    simp [applyOp, clearHighlights, touches, HlOp.isClear, entryStep]

theorem applyOps_localize (ops : List HlOp) : ∀ (m : HighlightsState) (k : String),
    applyOps ops m k = replayKey (m k) (ops.filter (fun op => touches op k)) := by
  induction ops with
  | nil => intro m k; rfl
  | cons op rest ih =>
    intro m k
    show applyOps rest (applyOp m op) k = _
    rw [ih]
    by_cases ht : touches op k
    · rw [List.filter_cons_of_pos (by simpa using ht)]
      show _ = replayKey (entryStep (m k) op) (rest.filter (fun op => touches op k))
      rw [applyOp_at, if_pos ht]
    · rw [List.filter_cons_of_neg (by simpa using ht)]
      rw [applyOp_at, if_neg ht]

theorem toggleIdx_nodup {idx : Int} {s : List Int} (h : s.Nodup) :
    (toggleIdx idx s).Nodup := by
  unfold toggleIdx
  split
  · exact h.filter _
  · rename_i hc
    rw [List.nodup_append]
    refine ⟨h, List.nodup_singleton idx, ?_⟩
    intro a ha hb
    rw [List.mem_singleton] at hb
    subst hb
    exact hc (by simpa using ha)

theorem toggleIdx_mem (idx j : Int) (s : List Int) :
    j ∈ toggleIdx idx s ↔ (if j = idx then ¬(j ∈ s) else j ∈ s) := by
  unfold toggleIdx
  by_cases hc : s.contains idx
  · rw [if_pos hc]
    have hidx : idx ∈ s := by simpa using hc
    rw [List.mem_filter]
    by_cases hj : j = idx
    · subst hj
      simp [hidx]
    · simp [hj]
  · rw [if_neg hc]
    have hidx : ¬(idx ∈ s) := fun h => hc (by simpa using h)
    rw [List.mem_append, List.mem_singleton]
    by_cases hj : j = idx
    · subst hj
      simp [hidx]
    · simp [hj]

/-- Replay of a list of toggled sentence indices over a sentences list. -/
def replaySent (s : List Int) (idxs : List Int) : List Int :=
  idxs.foldl (fun acc idx => toggleIdx idx acc) s

theorem replaySent_spec (idxs : List Int) : ∀ s : List Int, s.Nodup →
    (replaySent s idxs).Nodup
      ∧ ∀ j, (j ∈ replaySent s idxs
          ↔ (if (idxs.count j) % 2 = 1 then ¬(j ∈ s) else j ∈ s)) := by
  induction idxs with
  | nil =>
    intro s h
    exact ⟨h, fun j => by simp [replaySent]⟩
  | cons idx rest ih =>
    intro s h
    obtain ⟨hnd, hmem⟩ := ih (toggleIdx idx s) (toggleIdx_nodup h)
    refine ⟨hnd, ?_⟩
    intro j
    rw [show replaySent s (idx :: rest) = replaySent (toggleIdx idx s) rest from rfl]
    rw [hmem j]
    by_cases hj : j = idx
    · subst hj
      rw [List.count_cons_self]
      by_cases hp : rest.count j % 2 = 1
      · rw [if_pos hp, if_neg (by omega)]
        rw [toggleIdx_mem, if_pos rfl]
        exact not_not
      · rw [if_neg hp, if_pos (by omega)]
        rw [toggleIdx_mem, if_pos rfl]
    · rw [List.count_cons_of_ne hj]
      rw [show (j ∈ toggleIdx idx s) = (j ∈ s) from
        propext ((toggleIdx_mem idx j s).trans (by rw [if_neg hj]))]

theorem replayKey_sent (ops : List HlOp) :
    (∀ op ∈ ops, op.isSent = true) →
    ∀ s : List Int, replayKey (some ⟨s, decide (0 < s.length)⟩) ops
      = some ⟨replaySent s (ops.map HlOp.idx),
          decide (0 < (replaySent s (ops.map HlOp.idx)).length)⟩ := by
  induction ops with
  | nil => intro _ s; rfl
  | cons op rest ih =>
    intro hall s
    cases op with
    | toggleSentence i idx =>
      show replayKey (entryStep (some ⟨s, decide (0 < s.length)⟩)
        (.toggleSentence i idx)) rest = _
      have hstep : entryStep (some ⟨s, decide (0 < s.length)⟩)
          (.toggleSentence i idx)
          = some ⟨toggleIdx idx s, decide (0 < (toggleIdx idx s).length)⟩ := rfl
      rw [hstep]
      exact ih (fun op h => hall op (List.mem_cons_of_mem _ h)) (toggleIdx idx s)
    | toggleCell i r c =>
      exact absurd (hall _ (List.mem_cons_self _ _)) (by simp [HlOp.isSent])
    | clearAll =>
      exact absurd (hall _ (List.mem_cons_self _ _)) (by simp [HlOp.isSent])

theorem replayKey_sent_none (ops : List HlOp)
    (hall : ∀ op ∈ ops, op.isSent = true) (hne : ops ≠ []) :
    replayKey none ops
      = some ⟨replaySent [] (ops.map HlOp.idx),
          decide (0 < (replaySent [] (ops.map HlOp.idx)).length)⟩ := by
  cases ops with
  | nil => exact absurd rfl hne
  | cons op rest =>
    cases op with
    | toggleSentence i idx =>
      show replayKey (entryStep none (.toggleSentence i idx)) rest = _
      have hstep : entryStep none (.toggleSentence i idx)
          = some ⟨toggleIdx idx [], decide (0 < (toggleIdx idx []).length)⟩ := rfl
      rw [hstep]
      exact replayKey_sent rest (fun op h => hall op (List.mem_cons_of_mem _ h))
        (toggleIdx idx [])
    | toggleCell i r c =>
      exact absurd (hall _ (List.mem_cons_self _ _)) (by simp [HlOp.isSent])
    | clearAll =>
      exact absurd (hall _ (List.mem_cons_self _ _)) (by simp [HlOp.isSent])

theorem decide_succ_mod_two (n : Nat) :
    decide ((n + 1) % 2 = 1) = !decide (n % 2 = 1) := by
  by_cases h : n % 2 = 1
  · have h2 : ¬((n + 1) % 2 = 1) := by omega
    simp [h, h2]
  · have h2 : (n + 1) % 2 = 1 := by omega
    simp [h, h2]

/-- The two entry values a cell key alternates between. -/
def cellEntry (b : Bool) : HighlightEntry := ⟨if b then [(0 : Int)] else [], b⟩

theorem replayKey_cell (ops : List HlOp) :
    (∀ op ∈ ops, op.isCell = true) →
    ∀ b : Bool, replayKey (some (cellEntry b)) ops
      = some (cellEntry (Bool.xor b (decide (ops.length % 2 = 1)))) := by
  induction ops with
  | nil => intro _ b; simp [replayKey, cellEntry]
  | cons op rest ih =>
    intro hall b
    cases op with
    | toggleCell i r c =>
      show replayKey (entryStep (some (cellEntry b)) (.toggleCell i r c)) rest = _
      have hstep : entryStep (some (cellEntry b)) (.toggleCell i r c)
          = some (cellEntry (!b)) := by
        cases b <;> rfl
      rw [hstep, ih (fun op h => hall op (List.mem_cons_of_mem _ h)) (!b)]
      simp only [List.length_cons, decide_succ_mod_two]
      cases b <;>
        rcases Bool.dichotomy (decide (rest.length % 2 = 1)) with hd | hd <;>
        rw [hd] <;> rfl
    | toggleSentence i idx =>
      exact absurd (hall _ (List.mem_cons_self _ _)) (by simp [HlOp.isCell])
    | clearAll =>
      exact absurd (hall _ (List.mem_cons_self _ _)) (by simp [HlOp.isCell])

theorem replayKey_cell_none (ops : List HlOp)
    (hall : ∀ op ∈ ops, op.isCell = true) (hne : ops ≠ []) :
    replayKey none ops = some (cellEntry (decide (ops.length % 2 = 1))) := by
  cases ops with
  | nil => exact absurd rfl hne
  | cons op rest =>
    cases op with
    | toggleCell i r c =>
      show replayKey (entryStep none (.toggleCell i r c)) rest = _
      have hstep : entryStep none (.toggleCell i r c) = some (cellEntry true) := rfl
      rw [hstep, replayKey_cell rest (fun op h => hall op (List.mem_cons_of_mem _ h)) true]
      simp only [List.length_cons, decide_succ_mod_two]
      rcases Bool.dichotomy (decide (rest.length % 2 = 1)) with hd | hd <;>
        rw [hd] <;> rfl
    | toggleSentence i idx =>
      exact absurd (hall _ (List.mem_cons_self _ _)) (by simp [HlOp.isCell])
    | clearAll =>
      exact absurd (hall _ (List.mem_cons_self _ _)) (by simp [HlOp.isCell])

/-- The part of an entry the export assembler can observe: the highlight flag
and the ascending-sorted selection. -/
def entryView : Option HighlightEntry → Option (Bool × List Int)
  | none => none
  | some e => some (e.hasHighlight, sortAsc e.sentences)

theorem filterMap_congr' {α β : Type} (f g : α → Option β)
    (l : List α) (h : ∀ a ∈ l, f a = g a) : l.filterMap f = l.filterMap g := by
  induction l with
  | nil => rfl
  | cons a rest ih =>
    rw [List.filterMap_cons, List.filterMap_cons, h a (by simp),
      ih (fun x hx => h x (by simp [hx]))]

theorem exportElement_congr (h1 h2 : HighlightsState) (el : DocElement)
    (h : entryView (h1 el.elId) = entryView (h2 el.elId)) :
    exportElement h1 el = exportElement h2 el := by
  cases el with
  | paragraph i text =>
    simp only [DocElement.elId] at h
    cases he1 : h1 i with
    | none =>
      cases he2 : h2 i with
      | none => simp [exportElement, he1, he2]
      | some e2 =>
        rw [he1, he2] at h
        simp [entryView] at h
    | some e1 =>
      cases he2 : h2 i with
      | none =>
        rw [he1, he2] at h
        simp [entryView] at h
      | some e2 =>
        rw [he1, he2] at h
        simp only [entryView, Option.some.injEq, Prod.mk.injEq] at h
        obtain ⟨hb, hs⟩ := h
        simp only [exportElement, he1, he2, hb, hs]
  | checkbox i text =>
    simp only [DocElement.elId] at h
    cases he1 : h1 i with
    | none =>
      cases he2 : h2 i with
      | none => simp [exportElement, he1, he2]
      | some e2 =>
        rw [he1, he2] at h
        simp [entryView] at h
    | some e1 =>
      cases he2 : h2 i with
      | none =>
        rw [he1, he2] at h
        simp [entryView] at h
      | some e2 =>
        rw [he1, he2] at h
        simp only [entryView, Option.some.injEq, Prod.mk.injEq] at h
        obtain ⟨hb, hs⟩ := h
        simp only [exportElement, he1, he2, hb, hs]
  | heading i lv ct => rfl
  | table i data => rfl
  | pageBreak i => rfl

theorem getAll_congr (pages : List (List DocElement)) (h1 h2 : HighlightsState)
    (h : ∀ k, entryView (h1 k) = entryView (h2 k)) :
    getAllHighlightedText pages h1 = getAllHighlightedText pages h2 := by
  unfold getAllHighlightedText
  congr 1
  apply List.map_congr_left
  intro p _
  exact filterMap_congr' _ _ p (fun el _ => exportElement_congr h1 h2 el (h el.elId))

/-- Every operation of the sequence is a toggle (no clearAll). -/
def OnlyToggles (ops : List HlOp) : Prop := ∀ op ∈ ops, op.isClear = false

/-- Sentence toggles and cell toggles never address the same key. -/
def SentCellDisjoint (ops : List HlOp) : Prop :=
  ∀ op1 ∈ ops, ∀ op2 ∈ ops, op1.isSent = true → op2.isCell = true →
    op1.key ≠ op2.key

theorem entryView_perm (ops ops' : List HlOp) (honly : OnlyToggles ops)
    (hdisj : SentCellDisjoint ops) (hperm : ops.Perm ops') (k : String) :
    entryView (applyOps ops emptyHighlights k)
      = entryView (applyOps ops' emptyHighlights k) := by
  rw [applyOps_localize, applyOps_localize]
  show entryView (replayKey none (ops.filter (fun op => touches op k)))
    = entryView (replayKey none (ops'.filter (fun op => touches op k)))
  have hpermF : (ops.filter (fun op => touches op k)).Perm
      (ops'.filter (fun op => touches op k)) := hperm.filter _
  set F1 := ops.filter (fun op => touches op k) with hF1
  set F2 := ops'.filter (fun op => touches op k) with hF2
  have hkey : ∀ op ∈ F1, op.key = k ∧ op.isClear = false := by
    intro op hop
    have h1 := List.mem_filter.mp hop
    have hcl := honly op h1.1
    have ht := h1.2
    simp only [touches, hcl, Bool.false_or, decide_eq_true_eq] at ht
    exact ⟨ht.symm, hcl⟩
  by_cases hnil : F1 = []
  · have hnil2 : F2 = [] := (hnil ▸ hpermF).symm.eq_nil
    rw [hnil, hnil2]
  · have hnil2 : F2 ≠ [] := by
      intro h2
      exact hnil (h2 ▸ hpermF).eq_nil
    by_cases hsent : ∀ op ∈ F1, op.isSent = true
    · have hsent2 : ∀ op ∈ F2, op.isSent = true :=
        fun op h => hsent op (hpermF.mem_iff.mpr h)
      rw [replayKey_sent_none F1 hsent hnil, replayKey_sent_none F2 hsent2 hnil2]
      have hpermIdx : (F1.map HlOp.idx).Perm (F2.map HlOp.idx) := hpermF.map _
      obtain ⟨hnd1, hm1⟩ := replaySent_spec (F1.map HlOp.idx) [] List.nodup_nil
      obtain ⟨hnd2, hm2⟩ := replaySent_spec (F2.map HlOp.idx) [] List.nodup_nil
      have hpermS : (replaySent [] (F1.map HlOp.idx)).Perm
          (replaySent [] (F2.map HlOp.idx)) := by
        rw [List.perm_ext_iff_of_nodup hnd1 hnd2]
        intro j
        rw [hm1 j, hm2 j, hpermIdx.count_eq]
      have hsorteq : sortAsc (replaySent [] (F1.map HlOp.idx))
          = sortAsc (replaySent [] (F2.map HlOp.idx)) := by
        refine List.eq_of_perm_of_sorted ?_ (List.sorted_insertionSort _ _)
          (List.sorted_insertionSort _ _)
        exact ((List.perm_insertionSort _ _).trans hpermS).trans
          (List.perm_insertionSort _ _).symm
      have hlen : (replaySent [] (F1.map HlOp.idx)).length
          = (replaySent [] (F2.map HlOp.idx)).length := hpermS.length_eq
      simp [entryView, hsorteq, hlen]
    · have hexcell : ∃ opc ∈ F1, opc.isCell = true := by
        push_neg at hsent
        obtain ⟨opc, hopc, hns⟩ := hsent
        refine ⟨opc, hopc, ?_⟩
        cases opc with
        | toggleSentence i idx => exact absurd rfl hns
        | toggleCell i r c => rfl
        | clearAll => exact absurd (hkey _ hopc).2 (by simp [HlOp.isClear])
      obtain ⟨opc, hopc, hcellc⟩ := hexcell
      have hcellAll : ∀ op ∈ F1, op.isCell = true := by
        intro op hop
        cases hsop : op with
        | toggleSentence i idx =>
          exfalso
          have hkeq : op.key = opc.key := (hkey op hop).1.trans (hkey opc hopc).1.symm
          exact hdisj op (List.mem_filter.mp hop).1 opc (List.mem_filter.mp hopc).1
            (by rw [hsop]; rfl) hcellc (hsop ▸ hkeq)
        | toggleCell i r c => rfl
        | clearAll => exact absurd (hkey op hop).2 (by rw [hsop]; simp [HlOp.isClear])
      have hcellAll2 : ∀ op ∈ F2, op.isCell = true :=
        fun op h => hcellAll op (hpermF.mem_iff.mpr h)
      rw [replayKey_cell_none F1 hcellAll hnil,
        replayKey_cell_none F2 hcellAll2 hnil2, hpermF.length_eq]

/-- C8: (a) for every pagination and highlight map, the export output is the
canonical page-order, in-page-order traversal — one optional entry per
element, so entries appear in document order with one entry per contributing
paragraph/checkbox element; (b) starting from the empty map, any permutation
of a toggle sequence (sentence and cell toggles on disjoint keys, as in the
application) produces the same export output, so the output is independent of
the order in which annotations were toggled; (c) within one entry the
selected indices are traversed in ascending order: the sort used by the
assembler is sorted and a permutation of the selection (the fragments are
then joined with single spaces by definition of `exportElement`). -/
theorem C8_export_order :
    (∀ (pages : List (List DocElement)) (hl : HighlightsState),
        getAllHighlightedText pages hl
          = (pages.flatten).filterMap (exportElement hl))
      ∧ (∀ (pages : List (List DocElement)) (ops ops' : List HlOp),
          OnlyToggles ops → SentCellDisjoint ops → ops.Perm ops' →
          getAllHighlightedText pages (applyOps ops emptyHighlights)
            = getAllHighlightedText pages (applyOps ops' emptyHighlights))
      ∧ (∀ l : List Int, List.Sorted (· ≤ ·) (sortAsc l) ∧ (sortAsc l).Perm l) := by
  refine ⟨?_, ?_, ?_⟩
  · intro pages hl
    induction pages with
    | nil => rfl
    | cons p rest ih =>
      simp only [getAllHighlightedText] at ih ⊢
      simp only [List.map_cons, List.flatten_cons, List.flatten_cons,
        List.filterMap_append, ih]
  · intro pages ops ops' honly hdisj hperm
    exact getAll_congr pages _ _ (entryView_perm ops ops' honly hdisj hperm)
  · intro l
    exact ⟨List.sorted_insertionSort _ _, List.perm_insertionSort _ _⟩

/-- C8 witness: toggling sentences 1 then 0 of a paragraph produces the same
export as toggling 0 then 1. -/
theorem C8_witness :
    getAllHighlightedText [[DocElement.paragraph "a" "One. Two."]]
        (applyOps [HlOp.toggleSentence "a" 1, HlOp.toggleSentence "a" 0]
          emptyHighlights)
      = getAllHighlightedText [[DocElement.paragraph "a" "One. Two."]]
        (applyOps [HlOp.toggleSentence "a" 0, HlOp.toggleSentence "a" 1]
          emptyHighlights) :=
  C8_export_order.2.1 [[DocElement.paragraph "a" "One. Two."]]
    [HlOp.toggleSentence "a" 1, HlOp.toggleSentence "a" 0]
    [HlOp.toggleSentence "a" 0, HlOp.toggleSentence "a" 1]
    (by unfold OnlyToggles; decide) (by unfold SentCellDisjoint; decide)
    (by decide)

/-! ## C1: batch ingestion (`readFiles`, source lines 312-326)

The two suspend points per file — `await file.arrayBuffer()` and `await
mammoth.convertToHtml(...)` — are modelled by `Option` results (`none` = the
promise rejects).  The external converter and the DOM walk of
`docxToElements` are parameters.  `readFiles` has no try/catch: an exception
in the loop propagates before `setDocuments` runs, so the document collection
is left unchanged. -/

/-- One file queued for ingestion; `bytes` is the result of
`file.arrayBuffer()` (`none` models the read throwing). -/
structure IngestFile where
  name : String
  bytes : Option (List Nat)
  deriving Repr, DecidableEq

/-- A parsed document as appended to the collection (the random `uid` is
omitted: it carries no information). -/
structure ParsedDocument where
  name : String
  elements : List DocElement
  deriving Repr, DecidableEq

/-- `docxToElements` = DOM walk (external, a parameter) + cleanup pass. -/
def docxToElements (walk : String → List DocElement) (html : String) :
    List DocElement :=
  docxCleanup (walk html)

/-- One iteration of the ingestion loop: read bytes, convert (`none` = the
converter failing), normalize. -/
def processFile (convert : List Nat → Option String)
    (walk : String → List DocElement) (f : IngestFile) :
    Option ParsedDocument :=
  match f.bytes with
  | none => none
  | some b =>
    match convert b with
    | none => none
    | some html => some ⟨f.name, docxToElements walk html⟩

/-- The sequential loop over the filtered batch; a failure at any file aborts
the whole loop (the exception propagates out of `readFiles`). -/
def processBatch (convert : List Nat → Option String)
    (walk : String → List DocElement) :
    List IngestFile → Option (List ParsedDocument)
  | [] => some []
  | f :: fs =>
    match processFile convert walk f with
    | none => none
    | some d => (processBatch convert walk fs).map (fun ds => d :: ds)

/-- ASCII case lowering.  `String.prototype.toLowerCase` also lowers
non-ASCII characters, but no non-ASCII character case-maps to `.`, `d`, `o`,
`c` or `x`, so for the `.docx` suffix test below ASCII lowering is exact. -/
def asciiLower (c : Char) : Char :=
  if 'A' ≤ c && c ≤ 'Z' then Char.ofNat (c.toNat + 32) else c

/-- `f.name.toLowerCase().endsWith(".docx")`. -/
def endsWithDocx (name : String) : Bool :=
  (name.toList.map asciiLower).reverse.take 5 = ".docx".toList.reverse

/-- `files.filter((f) => f.name.toLowerCase().endsWith(".docx"))`. -/
def docxFilter (files : List IngestFile) : List IngestFile :=
  files.filter (fun f => endsWithDocx f.name)

/-- `readFiles`: filter the batch; an empty filtered batch returns without
touching state; otherwise run the loop — if it throws, `setDocuments` is
never reached and the collection is unchanged; on success the parsed
documents are appended in input order. -/
def readFiles (convert : List Nat → Option String)
    (walk : String → List DocElement) (documents : List ParsedDocument)
    (files : List IngestFile) : List ParsedDocument :=
  if (docxFilter files).isEmpty then documents
  else
    match processBatch convert walk (docxFilter files) with
    | none => documents
    | some parsedDocs => documents ++ parsedDocs

theorem processBatch_none_iff (convert : List Nat → Option String)
    (walk : String → List DocElement) (l : List IngestFile) :
    processBatch convert walk l = none
      ↔ ∃ f ∈ l, processFile convert walk f = none := by
  induction l with
  | nil => simp [processBatch]
  | cons f fs ih =>
    simp only [processBatch]
    cases hf : processFile convert walk f with
    | none => simp [hf]
    | some d =>
      cases hb : processBatch convert walk fs with
      | none =>
        simp only [Option.map_none', true_iff]
        exact ⟨(ih.mp hb).choose, by
          have hspec := (ih.mp hb).choose_spec
          exact ⟨List.mem_cons_of_mem f hspec.1, hspec.2⟩⟩
      | some ds =>
        simp only [Option.map_some']
        constructor
        · intro h; cases h
        · rintro ⟨g, hg, hgnone⟩
          rcases List.mem_cons.mp hg with rfl | hg
          · rw [hf] at hgnone; cases hgnone
          · have : processBatch convert walk fs = none := ih.mpr ⟨g, hg, hgnone⟩
            rw [hb] at this; cases this

theorem processBatch_names (convert : List Nat → Option String)
    (walk : String → List DocElement) :
    ∀ (l : List IngestFile) (res : List ParsedDocument),
      processBatch convert walk l = some res →
      res.map ParsedDocument.name = l.map IngestFile.name := by
  intro l
  induction l with
  | nil =>
    intro res h
    cases h
    rfl
  | cons f fs ih =>
    intro res h
    simp only [processBatch] at h
    cases hf : processFile convert walk f with
    | none => rw [hf] at h; cases h
    | some d =>
      rw [hf] at h
      cases hb : processBatch convert walk fs with
      | none => rw [hb] at h; cases h
      | some ds =>
        rw [hb] at h
        cases h
        have hname : d.name = f.name := by
          unfold processFile at hf
          cases hbytes : f.bytes with
          | none => simp [hbytes] at hf
          | some b =>
            simp only [hbytes] at hf
            cases hconv : convert b with
            | none => simp [hconv] at hf
            | some html =>
              simp only [hconv] at hf
              cases hf
              rfl
        simp [ih ds hb, hname]

/-- C1 counterexample: a batch of two `.docx` files in which the first reads
and converts successfully and the second fails to read.  The claim predicts
the first file's document is still added; the code adds nothing — the
collection stays empty — because the loop's exception fires before
`setDocuments`.  (The second conjunct shows the first file on its own does
produce a document.) -/
theorem C1_counterexample :
    readFiles (fun _ => some "x") (fun _ => [DocElement.paragraph "p" "x"]) []
        [⟨"a.docx", some [1]⟩, ⟨"b.docx", none⟩]
      = []
    ∧ readFiles (fun _ => some "x") (fun _ => [DocElement.paragraph "p" "x"]) []
        [⟨"a.docx", some [1]⟩]
      = [⟨"a.docx", [DocElement.paragraph "p" "x"]⟩] := by
  constructor
  · rfl
  · rfl

/-- C1 (amended): a failure to read one file's bytes or to convert it aborts
the entire batch — no document from that batch (including files processed
before the failure) is added to the collection and the state is unchanged, so
in particular the failed file leaves no partial entry; when every file of the
filtered batch succeeds, all their documents are appended in input order, one
per file with its name. -/
theorem C1_batch_abort (convert : List Nat → Option String)
    (walk : String → List DocElement) (documents : List ParsedDocument)
    (files : List IngestFile) :
    ((∃ f ∈ docxFilter files, processFile convert walk f = none) →
        readFiles convert walk documents files = documents)
      ∧ ((∀ f ∈ docxFilter files, processFile convert walk f ≠ none) →
          ∃ res, processBatch convert walk (docxFilter files) = some res
            ∧ readFiles convert walk documents files = documents ++ res
            ∧ res.map ParsedDocument.name
                = (docxFilter files).map IngestFile.name) := by
  constructor
  · intro hex
    have hnone : processBatch convert walk (docxFilter files) = none :=
      (processBatch_none_iff convert walk (docxFilter files)).mpr hex
    unfold readFiles
    by_cases hempty : (docxFilter files).isEmpty
    · rw [if_pos hempty]
    · rw [if_neg hempty, hnone]
  · intro hall
    have hne : processBatch convert walk (docxFilter files) ≠ none := by
      intro hnone
      obtain ⟨f, hf, hfn⟩ :=
        (processBatch_none_iff convert walk (docxFilter files)).mp hnone
      exact hall f hf hfn
    obtain ⟨res, hres⟩ := Option.ne_none_iff_exists'.mp hne
    refine ⟨res, hres, ?_, processBatch_names convert walk _ res hres⟩
    unfold readFiles
    by_cases hempty : (docxFilter files).isEmpty
    · rw [if_pos hempty]
      have : docxFilter files = [] := List.isEmpty_iff.mp hempty
      rw [this] at hres
      cases hres
      simp
    · rw [if_neg hempty, hres]

/-- C1 witness: the amended theorem applied at the counterexample batch (one
good file, one unreadable file — the collection is left unchanged) and at an
all-good batch (the document is appended). -/
theorem C1_witness :
    readFiles (fun _ => some "x") (fun _ => [DocElement.paragraph "p" "x"])
        [] [⟨"a.docx", some [1]⟩, ⟨"b.docx", none⟩] = []
      ∧ ∃ res, readFiles (fun _ => some "x")
            (fun _ => [DocElement.paragraph "p" "x"]) [] [⟨"a.docx", some [1]⟩]
          = [] ++ res := by
  constructor
  · exact (C1_batch_abort (fun _ => some "x")
      (fun _ => [DocElement.paragraph "p" "x"]) []
      [⟨"a.docx", some [1]⟩, ⟨"b.docx", none⟩]).1
      ⟨⟨"b.docx", none⟩, by decide, rfl⟩
  · obtain ⟨res, -, hr, -⟩ := (C1_batch_abort (fun _ => some "x")
      (fun _ => [DocElement.paragraph "p" "x"]) []
      [⟨"a.docx", some [1]⟩]).2 (by decide)
    exact ⟨res, hr⟩

end DocViewer
